import Mathlib

/-!
Verification of the teo MongoDB connector core.

Shallow embedding of the connector's pure decision logic, translated from the
Rust sources:

* `src/connector/transaction.rs` — `MongoDBTransaction` (session gating, the
  create/update document builders, migrate, find_many ordering, error
  translation, raw-SQL rejection);
* `src/bson_ext/coder.rs` — `BsonCoder::encode` / `BsonCoder::decode`;
* `src/bson_ext/mod.rs` — `teon_value_to_bson`;
* `src/migration/index_model.rs` — the live-index → declared-index projection;
* `src/connector/connection.rs` / `owned_session.rs` — transaction handles.

Machine floats carry no arithmetic anywhere in this code (the codec only
widens `f32 → f64` and narrows back, which is exact on every `f32`), so
floating payloads are modelled as exact rationals with the widening and
narrowing maps the identity.  Driver calls are modelled by their observable
decision (which command is issued, with which document) rather than by a
network.  Rust `panic!` / `unwrap` failures are a distinguished `RunResult`
constructor, Rust `Result::Err` another.
-/

namespace MongoConnector

/-- Outcome of a fallible Rust computation: `ok`, an `Err` carrying a host
error, or a panic (`unwrap` failure, `panic!`, `unreachable!`). -/
inductive RunResult (ε : Type) (α : Type) where
  | ok (a : α)
  | err (e : ε)
  | panic (msg : String)
  deriving Repr, DecidableEq

/-- A step of an error-localising `KeyPath`: an array index or a document key. -/
inductive PathItem where
  | idx (i : Nat)
  | key (k : String)
  deriving Repr, DecidableEq

/-- `KeyPath`: ordered sequence of keys and indices scoping an error. -/
abbrev KeyPath := List PathItem

/-- The host error taxonomy surfaced by this connector (`teo_result::Error`
and the `error_ext` constructors used in `transaction.rs`). -/
inductive TeoError where
  | message (s : String)
  | recordDecodingError (modelName : String) (path : KeyPath) (expected : String)
  | uniqueValueDuplicated (path : KeyPath) (message : String)
  | unknownDatabaseWriteError (path : KeyPath) (message : String)
  | unknownDatabaseFindError (path : KeyPath) (message : String)
  | unknownDatabaseDeleteError (path : KeyPath) (message : String)
  | objectIsNotSavedThusCantBeDeleted (path : KeyPath)
  deriving Repr, DecidableEq

abbrev Res (α : Type) := RunResult TeoError α

/-- Bind on `RunResult`, propagating errors and panics. -/
def RunResult.bind {ε α β : Type} : RunResult ε α → (α → RunResult ε β) → RunResult ε β
  | .ok a, f => f a
  | .err e, _ => .err e
  | .panic m, _ => .panic m

/-- BSON values, as produced and consumed by the connector.  `ObjectId`
payloads are modelled by their hex string, `DateTime` by its UTC millisecond
timestamp, `Double` by an exact rational (see the header note on floats). -/
inductive Bson where
  | null
  | objectId (s : String)
  | boolean (b : Bool)
  | int32 (i : Int)
  | int64 (i : Int)
  | double (q : Rat)
  | string (s : String)
  | datetime (millis : Int)
  | array (xs : List Bson)
  | document (kvs : List (String × Bson))
  deriving Repr

/-- Constructor test for `Bson::Null` (the code only ever compares a BSON
value against `Bson::Null`). -/
def Bson.isNull : Bson → Bool
  | .null => true
  | _ => false

/-- A BSON document as an insertion-ordered key→value list
(`bson::Document`). -/
abbrev Doc := List (String × Bson)

/-- `bson::Document::insert`: replace in place when the key exists, else
append. -/
def docInsert (d : Doc) (k : String) (v : Bson) : Doc :=
  if d.any (fun kv => kv.1 = k) then
    d.map (fun kv => if kv.1 = k then (k, v) else kv)
  else
    d ++ [(k, v)]

/-- `bson::Document::get`. -/
def docGet (d : Doc) (k : String) : Option Bson :=
  (d.find? (fun kv => kv.1 = k)).map Prod.snd

/-- Key membership in a document. -/
def docHasKey (d : Doc) (k : String) : Bool :=
  d.any (fun kv => kv.1 = k)

/-- The runtime's tagged value type (`teo_teon::Value`), restricted to the
variants this connector touches.  `Date` is a count of days, `DateTime`
a UTC millisecond timestamp, floats are exact rationals, `Decimal` carries
its literal text (it is always rejected before inspection),
`EnumVariant` carries its string value. -/
inductive Value where
  | null
  | objectId (s : String)
  | bool (b : Bool)
  | int (i : Int)
  | int64 (i : Int)
  | float32 (q : Rat)
  | float (q : Rat)
  | decimal (s : String)
  | string (s : String)
  | date (days : Int)
  | dateTime (millis : Int)
  | enumVariant (value : String)
  | array (xs : List Value)
  | dictionary (kvs : List (String × Value))
  deriving Repr

/-- Milliseconds per day: `Date` encodes as the UTC midnight of the day. -/
def millisPerDay : Int := 86400000

mutual

/-- `teon_value_to_bson` (`src/bson_ext/mod.rs`): the canonical, non
type-directed `Value → Bson` mapping.  `none` models the two `panic!` arms
(`Decimal`, unconvertible variant). -/
def teonValueToBson : Value → Option Bson
  | .null => some .null
  | .objectId s => some (.objectId s)
  | .bool b => some (.boolean b)
  | .int i => some (.int32 i)
  | .int64 i => some (.int64 i)
  | .float32 q => some (.double q)
  | .float q => some (.double q)
  | .decimal _ => none
  | .string s => some (.string s)
  | .date d => some (.datetime (d * millisPerDay))
  | .dateTime t => some (.datetime t)
  | .enumVariant v => some (.string v)
  | .array xs => (teonListToBson xs).map Bson.array
  | .dictionary kvs => (teonEntriesToBson kvs).map Bson.document

/-- Elementwise canonical conversion of an array's members. -/
def teonListToBson : List Value → Option (List Bson)
  | [] => some []
  | v :: rest => do
    let b ← teonValueToBson v
    let bs ← teonListToBson rest
    pure (b :: bs)

/-- Entrywise canonical conversion of a dictionary's members, preserving
insertion order. -/
def teonEntriesToBson : List (String × Value) → Option (List (String × Bson))
  | [] => some []
  | (k, v) :: rest => do
    let b ← teonValueToBson v
    let bs ← teonEntriesToBson rest
    pure ((k, b) :: bs)

end

/-! Transaction lifecycle (`MongoDBTransaction` state, `src/connector/transaction.rs`) -/

/-- Observable state of a `MongoDBTransaction`: whether an `OwnedSession` is
held, and the `committed` atomic flag.  The `Database` handle carries no
decision-relevant state. -/
structure MTransaction where
  hasOwnedSession : Bool
  committed : Bool
  deriving Repr, DecidableEq

/-- `MongoDBTransaction::session` (transaction.rs:45-54): `None` when the
`committed` flag is set or no session is owned; the owned session otherwise.
Modelled as the `is_some` bit of the returned option. -/
def MTransaction.sessionSome (t : MTransaction) : Bool :=
  if t.committed then false else t.hasOwnedSession

/-- `MongoDBTransaction::commit` (transaction.rs:621-627): when a session is
owned, forward to the driver's `commit_transaction` (whose success is the
`driverOk` input) and return its translated result; otherwise succeed.  The
transaction state is returned unchanged — the body never writes any field,
in particular it never stores into `committed`. -/
def MTransaction.commit (t : MTransaction) (driverOk : Bool) :
    Res Unit × MTransaction :=
  if t.hasOwnedSession then
    ((if driverOk then .ok () else .err (.message "commit failed")), t)
  else
    (.ok (), t)

/-- `MongoDBTransaction::is_committed` (transaction.rs:613-615). -/
def MTransaction.isCommitted (t : MTransaction) : Bool := t.committed

/-- `MongoDBConnection::transaction` (connection.rs:75-87): a freshly started
transactional handle — owned session present, `committed` initialised false. -/
def freshTransactionalHandle : MTransaction :=
  { hasOwnedSession := true, committed := false }

/-! Raw SQL surface (`sql`, `query_raw`, transaction.rs:472-474 / 609-611) -/

/-- `MongoDBTransaction::sql`: unconditionally
`Err(Error::new("do not run raw sql on MongoDB database"))`. -/
def MTransaction.sql (_model : String) (_query : String) : Res (List Value) :=
  .err (.message "do not run raw sql on MongoDB database")

/-- `MongoDBTransaction::query_raw`: the body is `unreachable!()`, which
panics when called. -/
def MTransaction.queryRaw (_value : Value) : Res Value :=
  .panic "internal error: entered unreachable code"

/-! `find_many` result ordering (transaction.rs:522-547) -/

/-- The materialization loop of `find_many`: documents are consumed in
emitted order; each is materialized (`document_to_object`); on success the
object is pushed at the front when the finder's negative-take bit is set,
at the back otherwise; a materialization failure aborts the whole call with
`unknown_database_find_error`. -/
def findManyCollect {δ ω : Type} (reverse : Bool) (materialize : δ → Res ω)
    (path : KeyPath) : List δ → List ω → Res (List ω)
  | [], acc => .ok acc
  | d :: rest, acc =>
    match materialize d with
    | .ok obj => findManyCollect reverse materialize path rest
        (if reverse then obj :: acc else acc ++ [obj])
    | .err e => .err (.unknownDatabaseFindError path (reprStr e))
    | .panic m => .panic m

/-- `find_many` restricted to its ordering behaviour: materialize every
emitted document, ordering the results by the negative-take bit. -/
def findManyOrdered {δ ω : Type} (reverse : Bool) (materialize : δ → Res ω)
    (path : KeyPath) (emitted : List δ) : Res (List ω) :=
  findManyCollect reverse materialize path emitted []

/-! Type descriptors and the type-directed codec (`src/bson_ext/coder.rs`) -/

/-- The declared-type tags this connector dispatches on
(`teo_parser::r#type::Type`, restricted to the variants the codec handles).
In the Rust, `Array`/`Dictionary` carry an inner `Type` that may be wrapped
in `Optional`; `unwrap_optional()`/`is_optional()` split that wrapping, which
is modelled here by the explicit `innerOpt` bit. -/
inductive Ty where
  | int
  | int64
  | float32
  | float
  | bool
  | string
  | objectId
  | date
  | dateTime
  | decimal
  | enumVariant (path : List String)
  | array (inner : Ty) (innerOpt : Bool)
  | dict (inner : Ty) (innerOpt : Bool)
  deriving Repr, DecidableEq

/-- A runtime enum as the decoder consumes it: its reference path and the
cached member-name list (`e.cache.member_names`). -/
structure EnumDef where
  path : List String
  memberNames : List String
  deriving Repr, DecidableEq

/-- The namespace, restricted to what decoding consults: enum lookup by
path (`namespace.enum_at_path`). -/
structure NamespaceModel where
  enums : List EnumDef
  deriving Repr, DecidableEq

/-- `namespace.enum_at_path`. -/
def NamespaceModel.enumAtPath (ns : NamespaceModel) (p : List String) : Option EnumDef :=
  ns.enums.find? (fun e => e.path = p)

/-- Modelled from the spec: `teo_teon::Value::as_int` (external crate) —
yields the payload of an `Int` value, nothing else is integer-coercible
to `i32` here. -/
def Value.asInt : Value → Option Int
  | .int i => some i
  | _ => none

/-- Modelled from the spec: `teo_teon::Value::as_int64` (external crate) —
yields the payload of an `Int64` value. -/
def Value.asInt64 : Value → Option Int
  | .int64 i => some i
  | _ => none

mutual

/-- `BsonCoder::decode` (coder.rs:37-111).  A BSON `Null` with `optional`
set decodes to `Value::Null` before any tag dispatch; otherwise the
declared type tag dispatches, a tag mismatch yields
`record_decoding_error` (never a coercion), `Decimal` panics, enum members
are validated against the namespace, and arrays/documents recurse
per-element with the path extended by the index/key. -/
def decode (ns : NamespaceModel) (modelName : String) :
    Ty → Bool → Bson → KeyPath → Res Value
  | ty, opt, b, path =>
    if b.isNull ∧ opt then .ok .null
    else match ty with
    | .objectId =>
      match b with
      | .objectId s => .ok (.objectId s)
      | _ => .err (.recordDecodingError modelName path "object id")
    | .bool =>
      match b with
      | .boolean v => .ok (.bool v)
      | _ => .err (.recordDecodingError modelName path "bool")
    | .int =>
      match b with
      | .int32 n => .ok (.int n)
      | _ => .err (.recordDecodingError modelName path "int 32")
    | .int64 =>
      match b with
      | .int64 n => .ok (.int64 n)
      | _ => .err (.recordDecodingError modelName path "int 64")
    | .float32 =>
      match b with
      | .double n => .ok (.float32 n)
      | _ => .err (.recordDecodingError modelName path "double")
    | .float =>
      match b with
      | .double n => .ok (.float n)
      | _ => .err (.recordDecodingError modelName path "double")
    | .decimal => .panic "Decimal is not implemented by MongoDB."
    | .string =>
      match b with
      | .string s => .ok (.string s)
      | _ => .err (.recordDecodingError modelName path "string")
    | .date =>
      match b with
      | .datetime t => .ok (.date (Int.fdiv t millisPerDay))
      | _ => .err (.recordDecodingError modelName path "datetime")
    | .dateTime =>
      match b with
      | .datetime t => .ok (.dateTime t)
      | _ => .err (.recordDecodingError modelName path "datetime")
    | .enumVariant p =>
      match b with
      | .string s =>
        match ns.enumAtPath p with
        | none => .panic "called Option::unwrap on a None value"
        | some e =>
          if s ∈ e.memberNames then .ok (.string s)
          else .err (.recordDecodingError modelName path (String.intercalate "." e.path))
      | _ => .err (.recordDecodingError modelName path "string")
    | .array inner innerOpt =>
      match b with
      | .array xs =>
        match decodeList ns modelName inner innerOpt path 0 xs with
        | .ok vs => .ok (.array vs)
        | .err e => .err e
        | .panic m => .panic m
      | _ => .err (.recordDecodingError modelName path "array")
    | .dict inner innerOpt =>
      match b with
      | .document kvs =>
        match decodeEntries ns modelName inner innerOpt path kvs with
        | .ok vs => .ok (.dictionary vs)
        | .err e => .err e
        | .panic m => .panic m
      | _ => .err (.recordDecodingError modelName path "document")

/-- Per-element decoding of a BSON array (enumerated, path extended by the
index); the first failure aborts, as with `collect::<Result<Vec<_>>>()?`. -/
def decodeList (ns : NamespaceModel) (modelName : String) (inner : Ty)
    (innerOpt : Bool) (path : KeyPath) (i : Nat) :
    List Bson → Res (List Value)
  | [] => .ok []
  | b :: rest =>
    match decode ns modelName inner innerOpt b (path ++ [.idx i]) with
    | .ok v =>
      match decodeList ns modelName inner innerOpt path (i + 1) rest with
      | .ok vs => .ok (v :: vs)
      | .err e => .err e
      | .panic m => .panic m
    | .err e => .err e
    | .panic m => .panic m

/-- Per-entry decoding of a BSON document (path extended by the key),
preserving insertion order; the first failure aborts. -/
def decodeEntries (ns : NamespaceModel) (modelName : String) (inner : Ty)
    (innerOpt : Bool) (path : KeyPath) :
    List (String × Bson) → Res (List (String × Value))
  | [] => .ok []
  | (k, b) :: rest =>
    match decode ns modelName inner innerOpt b (path ++ [.key k]) with
    | .ok v =>
      match decodeEntries ns modelName inner innerOpt path rest with
      | .ok vs => .ok ((k, v) :: vs)
      | .err e => .err e
      | .panic m => .panic m
    | .err e => .err e
    | .panic m => .panic m

end

/-- `BsonCoder::encode` (coder.rs:21-35): `Int`/`Int64` encode through the
integer coercions (falling back to `Bson::Null`), every other declared type
falls through to the canonical `Value → Bson` conversion (`value.into()`,
i.e. `teon_value_to_bson`), whose `Decimal`/unconvertible arms panic. -/
def encode : Ty → Value → Res Bson
  | .int, v =>
    match v.asInt with
    | some i => .ok (.int32 i)
    | none => .ok .null
  | .int64, v =>
    match v.asInt64 with
    | some i => .ok (.int64 i)
    | none => .ok .null
  | _, v =>
    match teonValueToBson v with
    | some b => .ok b
    | none => .panic "Decimal is not implemented by MongoDB."

/-- Encode at a declared type, then decode the result at the same type:
the composite whose identity on well-typed values is claim C6. -/
def encodeDecode (ns : NamespaceModel) (modelName : String) (ty : Ty)
    (opt : Bool) (v : Value) (path : KeyPath) : Res Value :=
  match encode ty v with
  | .ok b => decode ns modelName ty opt b path
  | .err e => .err e
  | .panic m => .panic m

/-- The typing judgment relating runtime values to declared types, read off
the decoder's own output discipline: `Null` inhabits every optional slot;
scalar variants match their tags; enum-typed values are strings that are
members of the (present) enum; arrays and dictionaries are well-typed
elementwise against the inner type.  `Decimal` has no inhabitants (the
codec rejects it). -/
inductive WellTyped (ns : NamespaceModel) : Ty → Bool → Value → Prop where
  | null (ty : Ty) : WellTyped ns ty true .null
  | int (i : Int) (opt : Bool) : WellTyped ns .int opt (.int i)
  | int64 (i : Int) (opt : Bool) : WellTyped ns .int64 opt (.int64 i)
  | float32 (q : Rat) (opt : Bool) : WellTyped ns .float32 opt (.float32 q)
  | float (q : Rat) (opt : Bool) : WellTyped ns .float opt (.float q)
  | bool (b : Bool) (opt : Bool) : WellTyped ns .bool opt (.bool b)
  | string (s : String) (opt : Bool) : WellTyped ns .string opt (.string s)
  | objectId (s : String) (opt : Bool) : WellTyped ns .objectId opt (.objectId s)
  | date (d : Int) (opt : Bool) : WellTyped ns .date opt (.date d)
  | dateTime (t : Int) (opt : Bool) : WellTyped ns .dateTime opt (.dateTime t)
  | enumVariant (p : List String) (e : EnumDef) (s : String) (opt : Bool) :
      ns.enumAtPath p = some e → s ∈ e.memberNames →
      WellTyped ns (.enumVariant p) opt (.string s)
  | array (inner : Ty) (innerOpt : Bool) (opt : Bool) (xs : List Value) :
      (∀ x ∈ xs, WellTyped ns inner innerOpt x) →
      WellTyped ns (.array inner innerOpt) opt (.array xs)
  | dict (inner : Ty) (innerOpt : Bool) (opt : Bool) (kvs : List (String × Value)) :
      (∀ kv ∈ kvs, WellTyped ns inner innerOpt kv.2) →
      WellTyped ns (.dict inner innerOpt) opt (.dictionary kvs)

/-! Model descriptors and object state -/

/-- Sort direction of an index item (`teo_runtime::sort::Sort`). -/
inductive SortDir where
  | asc
  | desc
  deriving Repr, DecidableEq

/-- Index kind (`teo_runtime::index::Type`). -/
inductive IndexKind where
  | primary
  | unique
  | index
  deriving Repr, DecidableEq

/-- One item of a declared index: the (runtime) field name and its sort. -/
structure Item where
  field : String
  sort : SortDir
  deriving Repr, DecidableEq

/-- A declared model index (`teo_runtime::model::Index`): kind, name, ordered
items.  Equality is componentwise (the derived `PartialEq` the migrator
compares with). -/
structure IndexDef where
  kind : IndexKind
  name : String
  items : List Item
  deriving Repr, DecidableEq

/-- A model field as the connector consumes it: runtime `name`, storage
`column_name`, declared type and optionality. -/
structure FieldDef where
  name : String
  columnName : String
  ty : Ty
  optional : Bool
  deriving Repr, DecidableEq

/-- A model property (virtual computed field): runtime name and type. -/
structure PropertyDef where
  name : String
  ty : Ty
  deriving Repr, DecidableEq

/-- The model descriptor surface used by the transaction code. -/
structure ModelDef where
  name : String
  tableName : String
  fields : List FieldDef
  properties : List PropertyDef
  indexes : List IndexDef
  autoKeys : List String
  deriving Repr, DecidableEq

/-- `model.field(name)`: look a field up by its runtime name. -/
def ModelDef.field (m : ModelDef) (k : String) : Option FieldDef :=
  m.fields.find? (fun f => f.name = k)

/-- `model.property(name)`. -/
def ModelDef.property (m : ModelDef) (k : String) : Option PropertyDef :=
  m.properties.find? (fun p => p.name = k)

/-- `model.field_with_column_name(column)`. -/
def ModelDef.fieldWithColumnName (m : ModelDef) (c : String) : Option FieldDef :=
  m.fields.find? (fun f => f.columnName = c)

/-- Association-list lookup (`IndexMap`/`HashMap` get by key). -/
def assocGet {α : Type} (kvs : List (String × α)) (k : String) : Option α :=
  (kvs.find? (fun kv => kv.1 = k)).map Prod.snd

/-- Association-list write: replace in place when the key exists, else
append (`set_value` on the object's value map). -/
def assocSet {α : Type} (kvs : List (String × α)) (k : String) (v : α) :
    List (String × α) :=
  if kvs.any (fun kv => kv.1 = k) then
    kvs.map (fun kv => if kv.1 = k then (k, v) else kv)
  else
    kvs ++ [(k, v)]

/-- The host `Object` as the write path observes it: the save-key list, the
value map behind `get_value`, the (pre-awaited) property values behind
`get_property_value`, the atomic-updator map (key ↦ single `{op: operand}`
entry), the database identifier and the `is_new` bit. -/
structure ObjectState where
  keysForSave : List String
  values : List (String × Value)
  propertyValues : List (String × Value)
  atomicUpdators : List (String × (String × Value))
  dbIdentifier : Value
  isNew : Bool

/-! Create path (`create_object`, transaction.rs:233-279) -/

/-- The insert-document builder of `create_object` (transaction.rs:240-254):
for each save key, a field encodes `get_value` at the field's type and is
inserted under its `column_name` unless the encoded BSON is `Null`; a
property encodes its awaited value and is inserted under the save key
unless `Null`; other keys are skipped. -/
def buildCreateDoc (m : ModelDef) (o : ObjectState) : List String → Doc → Res Doc
  | [], acc => .ok acc
  | k :: rest, acc =>
    match m.field k with
    | some f =>
      match assocGet o.values k with
      | none => .panic "called Option::unwrap on a None value"
      | some v =>
        match encode f.ty v with
        | .ok b =>
          buildCreateDoc m o rest (if b.isNull then acc else docInsert acc f.columnName b)
        | .err e => .err e
        | .panic msg => .panic msg
    | none =>
      match m.property k with
      | some p =>
        match assocGet o.propertyValues k with
        | none => .err (.message "property value unavailable")
        | some v =>
          match encode p.ty v with
          | .ok b =>
            buildCreateDoc m o rest (if b.isNull then acc else docInsert acc k b)
          | .err e => .err e
          | .panic msg => .panic msg
      | none => buildCreateDoc m o rest acc

/-- The insert document `create_object` sends to `insert_one`. -/
def createDoc (m : ModelDef) (o : ObjectState) : Res Doc :=
  buildCreateDoc m o o.keysForSave []

/-! Update path (`update_object`, transaction.rs:281-378) -/

/-- The five update buckets. -/
inductive BucketId where
  | set
  | unset
  | inc
  | mul
  | push
  deriving Repr, DecidableEq

/-- Modelled from the spec: `teo_teon::Value::neg` (external crate) —
negation of a numeric value, failing (`unwrap` panic) on non-numerics. -/
def Value.neg : Value → Option Value
  | .int i => some (.int (-i))
  | .int64 i => some (.int64 (-i))
  | .float32 q => some (.float32 (-q))
  | .float q => some (.float (-q))
  | _ => none

/-- Modelled from the spec: the composite
`val.recip().unwrap().to_float().unwrap().abs()` — the absolute value of the
reciprocal of a numeric value, as a double (exact-rational model). -/
def Value.recipAbsFloat : Value → Option Rat
  | .int i => some |((i : Rat))⁻¹|
  | .int64 i => some |((i : Rat))⁻¹|
  | .float32 q => some |q⁻¹|
  | .float q => some |q⁻¹|
  | _ => none

/-- The atomic-updator routing `match` of `update_object`
(transaction.rs:296-305): which bucket receives which BSON for a given
operator name; an unknown operator is `panic!("Unhandled key.")`. -/
def routeAtomic (op : String) (val : Value) : Res (BucketId × Bson) :=
  match op with
  | "increment" =>
    match teonValueToBson val with
    | some b => .ok (.inc, b)
    | none => .panic "Decimal is not implemented by MongoDB."
  | "decrement" =>
    match val.neg with
    | none => .panic "called Result::unwrap on an Err value"
    | some nv =>
      match teonValueToBson nv with
      | some b => .ok (.inc, b)
      | none => .panic "Decimal is not implemented by MongoDB."
  | "multiply" =>
    match teonValueToBson val with
    | some b => .ok (.mul, b)
    | none => .panic "Decimal is not implemented by MongoDB."
  | "divide" =>
    match val.recipAbsFloat with
    | some q => .ok (.mul, .double q)
    | none => .panic "called Result::unwrap on an Err value"
  | "push" =>
    match teonValueToBson val with
    | some b => .ok (.push, b)
    | none => .panic "Decimal is not implemented by MongoDB."
  | _ => .panic "Unhandled key."

/-- The five buckets accumulated by the per-key loop of `update_object`. -/
structure UpdateBuckets where
  set : Doc
  unset : Doc
  inc : Doc
  mul : Doc
  push : Doc

/-- Insert into the named bucket. -/
def UpdateBuckets.insertInto (bs : UpdateBuckets) : BucketId → String → Bson → UpdateBuckets
  | .set, k, b => { bs with set := docInsert bs.set k b }
  | .unset, k, b => { bs with unset := docInsert bs.unset k b }
  | .inc, k, b => { bs with inc := docInsert bs.inc k b }
  | .mul, k, b => { bs with mul := docInsert bs.mul k b }
  | .push, k, b => { bs with push := docInsert bs.push k b }

/-- The per-key bucket loop of `update_object` (transaction.rs:293-322): an
atomic updator routes to `$inc`/`$mul`/`$push` keyed by the field's
`column_name`; otherwise the encoded value goes to `$unset` (when `Null`)
or `$set` (otherwise), keyed by the save key itself; properties encode to
`$set`/`$unset` keyed by the save key; other keys are skipped. -/
def buildUpdateBuckets (m : ModelDef) (o : ObjectState) :
    List String → UpdateBuckets → Res UpdateBuckets
  | [], bs => .ok bs
  | k :: rest, bs =>
    match m.field k with
    | some f =>
      match assocGet o.atomicUpdators k with
      | some (op, val) =>
        match routeAtomic op val with
        | .ok (bucket, b) =>
          buildUpdateBuckets m o rest (bs.insertInto bucket f.columnName b)
        | .err e => .err e
        | .panic msg => .panic msg
      | none =>
        match assocGet o.values k with
        | none => .panic "called Option::unwrap on a None value"
        | some v =>
          match encode f.ty v with
          | .ok b =>
            buildUpdateBuckets m o rest
              (if b.isNull then bs.insertInto .unset k b else bs.insertInto .set k b)
          | .err e => .err e
          | .panic msg => .panic msg
    | none =>
      match m.property k with
      | some p =>
        match assocGet o.propertyValues k with
        | none => .err (.message "property value unavailable")
        | some v =>
          match encode p.ty v with
          | .ok b =>
            buildUpdateBuckets m o rest
              (if b.isNull then bs.insertInto .unset k b else bs.insertInto .set k b)
          | .err e => .err e
          | .panic msg => .panic msg
      | none => buildUpdateBuckets m o rest bs

/-- The assembly of the wire update document (transaction.rs:323-345): the
buckets are inserted in the order `$set, $unset, $inc, $mul, $push`, each
only when non-empty; `return_new` is set exactly when one of
`$inc`/`$mul`/`$push` is non-empty. -/
def assembleUpdate (bs : UpdateBuckets) : Doc × Bool :=
  ((if bs.set.isEmpty then [] else [("$set", Bson.document bs.set)]) ++
   (if bs.unset.isEmpty then [] else [("$unset", Bson.document bs.unset)]) ++
   (if bs.inc.isEmpty then [] else [("$inc", Bson.document bs.inc)]) ++
   (if bs.mul.isEmpty then [] else [("$mul", Bson.document bs.mul)]) ++
   (if bs.push.isEmpty then [] else [("$push", Bson.document bs.push)]),
   !bs.inc.isEmpty || !bs.mul.isEmpty || !bs.push.isEmpty)

/-- The driver call `update_object` decides on. -/
inductive UpdateAction where
  | noop
  | updateOne (filter : Doc) (update : Doc)
  | findOneAndUpdate (filter : Doc) (update : Doc) (returnAfter : Bool)

/-- The write decision of `update_object` (transaction.rs:343-362): an
entirely empty update document short-circuits to success with no driver
call; otherwise `return_new` selects `find_one_and_update` with
`ReturnDocument::After` over a plain `update_one`.  The filter is the
object's database identifier converted through `teon_value_to_bson` and
unwrapped as a document. -/
def updateDecision (m : ModelDef) (o : ObjectState) : Res UpdateAction :=
  match teonValueToBson o.dbIdentifier with
  | none => .panic "Decimal is not implemented by MongoDB."
  | some idBson =>
    match idBson with
    | .document filter =>
      match buildUpdateBuckets m o o.keysForSave ⟨[], [], [], [], []⟩ with
      | .ok bs =>
        let (updateDoc, returnNew) := assembleUpdate bs
        if updateDoc.isEmpty then .ok .noop
        else if returnNew then .ok (.findOneAndUpdate filter updateDoc true)
        else .ok (.updateOne filter updateDoc)
      | .err e => .err e
      | .panic msg => .panic msg
    | _ => .panic "called Option::unwrap on a None value"

/-- The post-`find_one_and_update` write-back (transaction.rs:363-371): for
each key of the object's atomic-updator map, read that key from the
server-returned document, decode it at the field's type, and set it on the
object. -/
def applyReturnNew (ns : NamespaceModel) (m : ModelDef) (rdoc : Doc) :
    List (String × (String × Value)) → List (String × Value) → Res (List (String × Value))
  | [], vals => .ok vals
  | (k, _) :: rest, vals =>
    match docGet rdoc k with
    | none => .panic "called Option::unwrap on a None value"
    | some b =>
      match m.field k with
      | none => .panic "called Option::unwrap on a None value"
      | some f =>
        match decode ns m.name f.ty f.optional b [] with
        | .ok v => applyReturnNew ns m rdoc rest (assocSet vals k v)
        | .err e => .err e
        | .panic msg => .panic msg

/-! Index migration (`migrate`, transaction.rs:385-462, and
`src/migration/index_model.rs`) -/

/-- A live collection index as `list_indexes` reports it: its key document
(column → 1 or -1), the `unique` option (absent folded to `false`, as
`from_index_model` does), the `sparse` option, and its name (the code
unwraps `options.name`). -/
structure LiveIndex where
  keys : List (String × Int)
  unique : Bool
  sparse : Bool
  name : String
  deriving Repr, DecidableEq

/-- Index-admin commands issued by `migrate`. -/
inductive MigOp where
  | dropIndex (name : String)
  | createIndex (name : String)
  deriving Repr, DecidableEq

/-- The implicit primary-key index test: `index.keys == doc!{"_id": 1}`. -/
def isIdIndex (l : LiveIndex) : Bool := l.keys = [("_id", (1 : Int))]

/-- `Index::from_index_model` (`src/migration/index_model.rs`): project a
live index onto a declared-index value — kind is `Unique` when the unique
option is set, `Index` otherwise (never `Primary`); items take the key
document's field names in order, `1 ↦ Asc`, anything else `Desc`. -/
def fromIndexModel (l : LiveIndex) : IndexDef :=
  { kind := if l.unique then .unique else .index,
    name := l.name,
    items := l.keys.map (fun kv => ⟨kv.1, if kv.2 = 1 then .asc else .desc⟩) }

/-- The key document built when `migrate` creates a declared index: each
item's field resolved on the model, mapped `column_name ↦ 1 or -1` by sort;
`none` models the `model.field(..).unwrap()` panic on a missing field. -/
def declaredKeys (m : ModelDef) : List Item → Option (List (String × Int))
  | [] => some []
  | it :: rest =>
    match m.field it.field with
    | none => none
    | some f =>
      (declaredKeys m rest).map
        (fun ks => (f.columnName, if it.sort = .asc then (1 : Int) else -1) :: ks)

/-- The live index that creating a declared index yields: the declared keys,
`unique = (kind ∈ {Unique, Primary})`, `sparse = true`, the declared name
(the `IndexOptions` built at transaction.rs:414-418/442-446). -/
def declaredToLive (m : ModelDef) (d : IndexDef) : Option LiveIndex :=
  (declaredKeys m d.items).map (fun ks =>
    { keys := ks,
      unique := d.kind = .unique || d.kind = .primary,
      sparse := true,
      name := d.name })

/-- The live-index review loop of `migrate` (transaction.rs:393-431), one
model: skip the implicit `{_id:1}` index; a live index with no declared
index of the same name is dropped; one that differs from its declaration
(compared through `from_index_model`) is dropped and re-created from the
declaration; an equal one is left alone; every non-implicit live name is
recorded as reviewed.  Returns the surviving live indexes, the reviewed
names, and the admin ops; `none` models a field-lookup panic. -/
def reviewAll (m : ModelDef) :
    List LiveIndex → Option (List LiveIndex × List String × List MigOp)
  | [] => some ([], [], [])
  | l :: rest =>
    if isIdIndex l then
      (reviewAll m rest).map (fun (ls, ns, ops) => (l :: ls, ns, ops))
    else
      match m.indexes.find? (fun d => d.name = l.name) with
      | none =>
        (reviewAll m rest).map (fun (ls, ns, ops) =>
          (ls, l.name :: ns, .dropIndex l.name :: ops))
      | some d =>
        if d = fromIndexModel l then
          (reviewAll m rest).map (fun (ls, ns, ops) => (l :: ls, l.name :: ns, ops))
        else
          match declaredToLive m d with
          | none => none
          | some nl =>
            (reviewAll m rest).map (fun (ls, ns, ops) =>
              (nl :: ls, l.name :: ns,
               .dropIndex l.name :: .createIndex d.name :: ops))

/-- The skip test of the creation loop (transaction.rs:434-440): a declared
index whose single item resolves to a field stored at column `_id` is
never created (implicitly present); `none` models the field-lookup panic. -/
def skipIdSingle (m : ModelDef) (d : IndexDef) : Option Bool :=
  if d.items.length = 1 then
    match d.items.head? with
    | some it => (m.field it.field).map (fun f => f.columnName == "_id")
    | none => some false
  else some false

/-- The creation loop of `migrate` (transaction.rs:432-459): every declared
index whose name was not reviewed, except the single-key `_id` case, is
created with the declared keys, `unique = (kind ∈ {Unique, Primary})`,
`sparse = true` and the declared name. -/
def createMissing (m : ModelDef) (reviewed : List String) :
    List IndexDef → Option (List LiveIndex × List MigOp)
  | [] => some ([], [])
  | d :: rest =>
    if reviewed.contains d.name then createMissing m reviewed rest
    else
      match skipIdSingle m d with
      | none => none
      | some true => createMissing m reviewed rest
      | some false =>
        match declaredToLive m d with
        | none => none
        | some nl =>
          (createMissing m reviewed rest).map (fun (ls, ops) =>
            (nl :: ls, .createIndex d.name :: ops))

/-- One model's pass of `migrate(models, reset_database = false)`: review
the live indexes, then create the missing declared ones.  Returns the
resulting live-index list (survivors and replacements in review order,
creations appended) and the admin ops issued. -/
def migrateModel (m : ModelDef) (live : List LiveIndex) :
    Option (List LiveIndex × List MigOp) := do
  let (survivors, reviewed, ops₁) ← reviewAll m live
  let (created, ops₂) ← createMissing m reviewed m.indexes
  pure (survivors ++ created, ops₁ ++ ops₂)

/-- The live index that a declared index materialises to once created (the
resolved form of `declaredToLive` when every item field resolves to a
column of the same name). -/
def dLive (d : IndexDef) : LiveIndex :=
  { keys := d.items.map (fun it => (it.field, if it.sort = .asc then (1 : Int) else -1)),
    unique := (d.kind = .unique || d.kind = .primary),
    sparse := true,
    name := d.name }

/-- The declared index a surviving non-implicit live index projects to in
the review loop: the named declaration, when one exists. -/
def pickD (m : ModelDef) (l : LiveIndex) : Option IndexDef :=
  if isIdIndex l then none else m.indexes.find? (fun d => d.name = l.name)

/-- What a live index becomes after one review step: the implicit `_id`
index and an up-to-date declared index survive unchanged, an undeclared one
is dropped, a stale one is replaced by its declaration's creation. -/
def surviveOne (m : ModelDef) (l : LiveIndex) : Option LiveIndex :=
  if isIdIndex l then some l
  else
    match m.indexes.find? (fun d => d.name = l.name) with
    | none => none
    | some d => some (if d = fromIndexModel l then l else dLive d)

/-! Error translation (`_handle_write_error`, transaction.rs:118-158) -/

/-- `mongodb::error::WriteFailure`, restricted to what the translator
inspects. -/
inductive WriteFailureKind where
  | writeError (code : Int) (message : String)
  | writeConcernError (message : String)
  | otherFailure
  deriving Repr, DecidableEq

/-- `mongodb::error::ErrorKind`, restricted to the translator's match arms;
`other` carries the debug formatting of the remaining kinds. -/
inductive MongoErrorKind where
  | write (w : WriteFailureKind)
  | transaction (message : String)
  | sessionsNotSupported
  | other (debug : String)
  deriving Repr, DecidableEq

/-- Strip an expected literal prefix from a character list. -/
def stripPrefixChars : List Char → List Char → Option (List Char)
  | [], cs => some cs
  | _ :: _, [] => none
  | p :: ps, c :: cs => if p = c then stripPrefixChars ps cs else none

/-- The capture of `dup key: (.+)` at the leftmost matching position: after
the literal `"dup key: "`, a greedy non-empty run of non-newline
characters. -/
def dupFullCaptureAux : List Char → Option (List Char)
  | [] => none
  | c :: rest =>
    match stripPrefixChars "dup key: ".data (c :: rest) with
    | some rem =>
      let cap := rem.takeWhile (fun ch => ch ≠ '\n')
      if cap.isEmpty then dupFullCaptureAux rest else some cap
    | none => dupFullCaptureAux rest

/-- Lazy sub-capture of `(.+?):` — the shortest non-empty run of
non-newline characters followed by a colon. -/
def lazyColonCapture : List Char → Option (List Char)
  | [] => none
  | c₀ :: rest =>
    if c₀ = '\n' then none else go [c₀] rest
where
  go (accRev : List Char) : List Char → Option (List Char)
    | [] => none
    | c :: rest =>
      if c = ':' then some accRev.reverse
      else if c = '\n' then none
      else go (c :: accRev) rest

/-- The capture of `dup key: \x7b (.+?):` at the leftmost matching
position: after the literal `"dup key: \x7b "`, the lazy run up to the
first colon. -/
def dupColCaptureAux : List Char → Option (List Char)
  | [] => none
  | c :: rest =>
    match stripPrefixChars "dup key: \x7b ".data (c :: rest) with
    | some rem =>
      match lazyColonCapture rem with
      | some cap => some cap
      | none => dupColCaptureAux rest
    | none => dupColCaptureAux rest

/-- String-level capture of the full offending key expression
(`dup key: (.+)`). -/
def dupFullCapture (s : String) : Option String :=
  (dupFullCaptureAux s.data).map (fun cs => ⟨cs⟩)

/-- String-level capture of the offending column name
(`dup key: \x7b (.+?):`). -/
def dupColCapture (s : String) : Option String :=
  (dupColCaptureAux s.data).map (fun cs => ⟨cs⟩)

/-- `_handle_write_error` (transaction.rs:118-158): write error code 11000
extracts the two regex captures (panicking when absent, per the unwraps),
resolves the captured column name on the model, and emits
`unique_value_duplicated` with the path extended by the field's runtime
name when the column resolves, the unextended path otherwise; every other
write error code, write-concern error, other write failure, transaction
error, `SessionsNotSupported` and unknown kind maps to
`unknown_database_write_error` with the respective message. -/
def handleWriteError (m : ModelDef) (path : KeyPath) (k : MongoErrorKind) : Res TeoError :=
  match k with
  | .write w =>
    match w with
    | .writeError code msg =>
      if code = 11000 then
        match dupFullCapture msg with
        | none => .panic "called Option::unwrap on a None value"
        | some fullMsg =>
          match dupColCapture msg with
          | none => .panic "called Option::unwrap on a None value"
          | some colName =>
            match m.fieldWithColumnName colName with
            | some f => .ok (.uniqueValueDuplicated (path ++ [.key f.name]) fullMsg)
            | none => .ok (.uniqueValueDuplicated path fullMsg)
      else .ok (.unknownDatabaseWriteError path msg)
    | .writeConcernError msg => .ok (.unknownDatabaseWriteError path msg)
    | .otherFailure => .ok (.unknownDatabaseWriteError path "unknown write failure")
  | .transaction msg => .ok (.unknownDatabaseWriteError path msg)
  | .sessionsNotSupported => .ok (.unknownDatabaseWriteError path "session is not supported")
  | .other dbg => .ok (.unknownDatabaseWriteError path ("unknown write: " ++ dbg))

/-! Concrete witness and counterexample data -/

/-- Concrete model for the C10 witness: one field whose column name differs
from its runtime name. -/
def m10 : ModelDef :=
  { name := "User", tableName := "users",
    fields := [{ name := "age", columnName := "db_age", ty := .int, optional := false }],
    properties := [], indexes := [], autoKeys := [] }

/-- Concrete object for the C10 witness. -/
def o10 : ObjectState :=
  { keysForSave := ["age"], values := [("age", .int 3)], propertyValues := [],
    atomicUpdators := [], dbIdentifier := .null, isNew := false }

/-- Concrete model for the C4 witness: a single int field `counter`. -/
def m4 : ModelDef :=
  { name := "Counter", tableName := "counters",
    fields := [{ name := "counter", columnName := "counter", ty := .int, optional := false }],
    properties := [], indexes := [], autoKeys := [] }

/-- Concrete object for the C4 witness: `counter = 10` with the atomic
updator `{increment: 5}`. -/
def o4 : ObjectState :=
  { keysForSave := ["counter"], values := [("counter", .int 10)],
    propertyValues := [], atomicUpdators := [("counter", ("increment", .int 5))],
    dbIdentifier := .dictionary [("_id", .objectId "abc")], isNew := false }

/-- Buckets built for the C4 witness object. -/
def bs4 : UpdateBuckets := ⟨[], [], [("counter", .int32 5)], [], []⟩

/-- Server-returned document for the C4 witness. -/
def rdoc4 : Doc := [("counter", .int32 15)]

/-- Object values after the C4 witness write-back. -/
def vals4 : List (String × Value) := [("counter", .int 15)]

/-- The wire key a save key would occupy in the insert document: the
field's `column_name`, or the save key itself for a property, or none. -/
def createWireKey (m : ModelDef) (k : String) : Option String :=
  match m.field k with
  | some f => some f.columnName
  | none =>
    match m.property k with
    | some _ => some k
    | none => none

/-- The insert-document entry a save key contributes when the whole build
succeeds: present exactly when its encoded BSON is non-`Null`. -/
def createEntryOk (m : ModelDef) (o : ObjectState) (k : String) : Option (String × Bson) :=
  match m.field k with
  | some f =>
    match assocGet o.values k with
    | some v =>
      match encode f.ty v with
      | .ok b => if b.isNull then none else some (f.columnName, b)
      | _ => none
    | none => none
  | none =>
    match m.property k with
    | some p =>
      match assocGet o.propertyValues k with
      | some v =>
        match encode p.ty v with
        | .ok b => if b.isNull then none else some (k, b)
        | _ => none
      | none => none
    | none => none

/-- Concrete model for the C8 witness: a unique `email` column. -/
def m8 : ModelDef :=
  { name := "User", tableName := "users",
    fields := [{ name := "email", columnName := "email", ty := .string, optional := false }],
    properties := [], indexes := [], autoKeys := [] }

/-- A driver duplicate-key message for the C8 witness. -/
def msg8 : String :=
  "E11000 duplicate key error collection: test.users index: email_1 dup key: \x7b email: \"a\" \x7d"

/-- Concrete model for the C3 counterexample: one field `a` and one
declared index of kind Primary on it. -/
def m3c : ModelDef :=
  { name := "Doc", tableName := "docs",
    fields := [⟨"a", "a", .string, false⟩],
    properties := [],
    indexes := [⟨.primary, "prim", [⟨"a", .asc⟩]⟩],
    autoKeys := [] }

/-- The implicit `{_id: 1}` live index. -/
def idLive : LiveIndex := ⟨[("_id", 1)], true, false, "_id_"⟩

/-- Live state after the first migrate run on `m3c`. -/
def live3c₁ : List LiveIndex := [idLive, ⟨[("a", 1)], true, true, "prim"⟩]

/-- Concrete model for the C3 counterexample, column-mismatch case: the
field `age` is stored at column `db_age`, with a unique index declared on
it. -/
def m3b : ModelDef :=
  { name := "User", tableName := "users",
    fields := [⟨"age", "db_age", .int, false⟩],
    properties := [],
    indexes := [⟨.unique, "byAge", [⟨"age", .asc⟩]⟩],
    autoKeys := [] }

/-- Live state after the first migrate run on `m3b`: the created index
carries the column name, which never compares equal to the declared item's
field name. -/
def live3b₁ : List LiveIndex := [idLive, ⟨[("db_age", 1)], true, true, "byAge"⟩]

/-- Concrete model for the C3 counterexample, `_id` case: a unique index
declared over the field stored at column `_id`. -/
def m3i : ModelDef :=
  { name := "Doc", tableName := "docs",
    fields := [⟨"_id", "_id", .objectId, false⟩],
    properties := [],
    indexes := [⟨.unique, "byId", [⟨"_id", .asc⟩]⟩],
    autoKeys := [] }

/-- Concrete model for the C3 counterexample, duplicate-name case: two
declared indexes share the name `n`. -/
def m3d : ModelDef :=
  { name := "Doc", tableName := "docs",
    fields := [⟨"a", "a", .string, false⟩],
    properties := [],
    indexes := [⟨.unique, "n", [⟨"a", .asc⟩]⟩, ⟨.index, "n", [⟨"a", .asc⟩]⟩],
    autoKeys := [] }

/-- Initial live state for the duplicate-name case: the collection holds
the second declaration's shape of index `n`. -/
def live3d₀ : List LiveIndex := [idLive, ⟨[("a", 1)], false, true, "n"⟩]

/-- Live state after the first migrate run on `m3d` from `live3d₀`: only
the first declaration named `n` materialises. -/
def live3d₁ : List LiveIndex := [idLive, ⟨[("a", 1)], true, true, "n"⟩]

/-! Theorems -/

/-- C1: `commit()` on a transactional handle (owned session present,
`committed = false`) succeeds, yet the `committed` flag is still false
afterwards and `session()` still returns the owned session — the body of
`commit` never stores into `committed` (no store exists anywhere in the
crate), contradicting the spec's "set `committed` to true; from then on
`session()` yields none". -/
theorem c1_commit_never_sets_committed_flag :
    (freshTransactionalHandle.commit true).1 = RunResult.ok () ∧
    (freshTransactionalHandle.commit true).2.committed = false ∧
    (freshTransactionalHandle.commit true).2.sessionSome = true :=
  ⟨rfl, rfl, rfl⟩

/-- C2, counterexample: `query_raw` does not return the claimed runtime
error — its body is `unreachable!()`, so it panics on the concrete input
`Value::Null`. -/
theorem c2_query_raw_panics_counterexample :
    MTransaction.queryRaw Value.null
      = RunResult.panic "internal error: entered unreachable code" ∧
    MTransaction.queryRaw Value.null
      ≠ RunResult.err (TeoError.message "do not run raw sql on MongoDB database") :=
  ⟨rfl, by simp [MTransaction.queryRaw]⟩

/-- C2, amended: for every model and input, `sql` returns the plain runtime
error "do not run raw sql on MongoDB database"; `query_raw` never returns a
value or an error — it panics (`unreachable!()`) on every input. -/
theorem c2_sql_errors_query_raw_panics (model query : String) (v : Value) :
    MTransaction.sql model query
      = RunResult.err (TeoError.message "do not run raw sql on MongoDB database") ∧
    MTransaction.queryRaw v
      = RunResult.panic "internal error: entered unreachable code" :=
  ⟨rfl, rfl⟩

private theorem findManyCollect_ok {δ ω : Type} (reverse : Bool)
    (materialize : δ → Res ω) (f : δ → ω) (path : KeyPath) :
    ∀ (ds : List δ) (acc : List ω), (∀ d ∈ ds, materialize d = .ok (f d)) →
      findManyCollect reverse materialize path ds acc =
        .ok (if reverse then (ds.map f).reverse ++ acc else acc ++ ds.map f) := by
  intro ds
  induction ds with
  | nil => intro acc _; cases reverse <;> simp [findManyCollect]
  | cons d rest ih =>
    intro acc h
    have hd : materialize d = .ok (f d) := h d (by simp)
    have hrest : ∀ x ∈ rest, materialize x = .ok (f x) := fun x hx => h x (by simp [hx])
    simp only [findManyCollect, hd, ih _ hrest, List.map_cons]
    cases reverse <;> simp [List.append_assoc]

/-- C9: when every emitted document materializes successfully, `find_many`
returns the objects in exactly the reverse of emitted order when the
finder's negative-take bit is set, and in emitted order otherwise. -/
theorem c9_find_many_ordering {δ ω : Type} (reverse : Bool)
    (materialize : δ → Res ω) (f : δ → ω) (path : KeyPath) (emitted : List δ)
    (h : ∀ d ∈ emitted, materialize d = .ok (f d)) :
    findManyOrdered reverse materialize path emitted =
      .ok (if reverse then (emitted.map f).reverse else emitted.map f) := by
  have := findManyCollect_ok reverse materialize f path emitted [] h
  simpa [findManyOrdered] using this

/-- C9 witness: three concretely-materialized documents with the
negative-take bit set come back reversed. -/
theorem c9_find_many_ordering_witness :
    findManyOrdered true (fun n : Nat => (.ok n : Res Nat)) [] [1, 2, 3]
      = .ok [3, 2, 1] := by
  simpa using
    c9_find_many_ordering true (fun n : Nat => (.ok n : Res Nat)) id []
      [1, 2, 3] (fun d _ => rfl)

/-- C5: the atomic-updator routing of `update_object`: `increment` puts the
canonical BSON of the operand into `$inc`; `decrement` the canonical BSON
of the negated operand into `$inc`; `multiply` into `$mul`; `divide` puts
`Double` of the absolute reciprocal into `$mul`; `push` into `$push`; any
other operator panics ("Unhandled key.").  And the bucket loop keys the
routed entry by the field's `column_name`. -/
theorem c5_atomic_routing (m : ModelDef) (o : ObjectState)
    (k : String) (rest : List String) (bs : UpdateBuckets)
    (f : FieldDef) (op : String) (val nv : Value) (b nb : Bson) (q : Rat)
    (bucket : BucketId) :
    (teonValueToBson val = some b → routeAtomic "increment" val = .ok (.inc, b)) ∧
    (Value.neg val = some nv → teonValueToBson nv = some nb →
      routeAtomic "decrement" val = .ok (.inc, nb)) ∧
    (teonValueToBson val = some b → routeAtomic "multiply" val = .ok (.mul, b)) ∧
    (Value.recipAbsFloat val = some q →
      routeAtomic "divide" val = .ok (.mul, .double q)) ∧
    (teonValueToBson val = some b → routeAtomic "push" val = .ok (.push, b)) ∧
    (op ≠ "increment" → op ≠ "decrement" → op ≠ "multiply" → op ≠ "divide" →
      op ≠ "push" → routeAtomic op val = .panic "Unhandled key.") ∧
    (m.field k = some f → assocGet o.atomicUpdators k = some (op, val) →
      routeAtomic op val = .ok (bucket, b) →
      buildUpdateBuckets m o (k :: rest) bs =
        buildUpdateBuckets m o rest (bs.insertInto bucket f.columnName b)) := by
  refine ⟨?_, ?_, ?_, ?_, ?_, ?_, ?_⟩
  · intro hb; simp [routeAtomic, hb]
  · intro hneg hb; simp [routeAtomic, hneg, hb]
  · intro hb; simp [routeAtomic, hb]
  · intro hq; simp [routeAtomic, hq]
  · intro hb; simp [routeAtomic, hb]
  · intro h1 h2 h3 h4 h5; simp [routeAtomic, h1, h2, h3, h4, h5]
  · intro hf hu hr; simp [buildUpdateBuckets, hf, hu, hr]

/-- C5 witness: the routing table evaluated at operand `5` (with negation
`-5` and reciprocal `1/5`) and at the unknown operator "unknown". -/
theorem c5_atomic_routing_witness :
    routeAtomic "increment" (.int 5) = .ok (.inc, .int32 5) ∧
    routeAtomic "decrement" (.int 5) = .ok (.inc, .int32 (-5)) ∧
    routeAtomic "multiply" (.int 5) = .ok (.mul, .int32 5) ∧
    routeAtomic "divide" (.int 5) = .ok (.mul, .double |((5 : Rat))⁻¹|) ∧
    routeAtomic "push" (.int 5) = .ok (.push, .int32 5) ∧
    routeAtomic "unknown" (.int 5) = .panic "Unhandled key." := by
  obtain ⟨h1, h2, h3, h4, h5, h6, -⟩ :=
    c5_atomic_routing ⟨"M", "m", [], [], [], []⟩
      ⟨[], [], [], [], .null, true⟩ "k" [] ⟨[], [], [], [], []⟩
      ⟨"k", "k", .int, false⟩ "unknown" (.int 5) (.int (-5))
      (.int32 5) (.int32 (-5)) |((5 : Rat))⁻¹| BucketId.inc
  exact ⟨h1 rfl, h2 rfl rfl, h3 rfl, h4 rfl, h5 rfl,
    h6 (by decide) (by decide) (by decide) (by decide) (by decide)⟩

private theorem docHasKey_docInsert_self (d : Doc) (k : String) (b : Bson) :
    docHasKey (docInsert d k b) k = true := by
  by_cases hmem : d.any (fun kv => kv.1 = k)
  · simp only [docInsert, docHasKey, hmem, if_true, List.any_map, List.any_eq_true]
    obtain ⟨kv, hkv, hk⟩ := List.any_eq_true.mp hmem
    refine ⟨kv, hkv, ?_⟩
    simp_all
  · simp [docInsert, docHasKey, hmem]

private theorem docHasKey_docInsert_other (d : Doc) (k k' : String) (b : Bson)
    (hne : k' ≠ k) : docHasKey (docInsert d k b) k' = docHasKey d k' := by
  by_cases hmem : d.any (fun kv => kv.1 = k)
  · simp only [docInsert, docHasKey, hmem, if_true, List.any_map]
    rw [Bool.eq_iff_iff]
    simp only [List.any_eq_true, Function.comp, decide_eq_true_eq]
    constructor
    · rintro ⟨kv, hkv, hk⟩
      by_cases h0 : kv.1 = k
      · simp only [h0, if_true] at hk
        exact absurd hk.symm hne
      · exact ⟨kv, hkv, by simpa [h0] using hk⟩
    · rintro ⟨kv, hkv, hk⟩
      have h0 : ¬ (kv.1 = k) := fun h0 => hne (by rw [← hk, h0])
      exact ⟨kv, hkv, by simpa [h0] using hk⟩
  · simp only [docInsert, docHasKey, hmem, if_false, List.any_append]
    have : ¬ (k = k') := fun h => hne h.symm
    simp [this]

/-- C10: the non-atomic arms of the update loop key `$set`/`$unset` entries
by the save key itself (the field's runtime name), while the atomic arms
and the create path key entries by the field's `column_name`; consequently,
when `column_name` differs from the runtime name, a non-atomic update's
wire entry sits under the runtime name and nothing is written under the
column name. -/
theorem c10_update_keying (m : ModelDef) (o : ObjectState)
    (k : String) (rest : List String) (bs : UpdateBuckets) (acc : Doc)
    (f : FieldDef) (op : String) (val : Value) (v : Value) (b bb : Bson)
    (bucket : BucketId) (hf : m.field k = some f) :
    (assocGet o.atomicUpdators k = none → assocGet o.values k = some v →
      encode f.ty v = .ok b →
      buildUpdateBuckets m o (k :: rest) bs =
        buildUpdateBuckets m o rest
          (if b.isNull then bs.insertInto .unset k b else bs.insertInto .set k b)) ∧
    (assocGet o.atomicUpdators k = some (op, val) →
      routeAtomic op val = .ok (bucket, bb) →
      buildUpdateBuckets m o (k :: rest) bs =
        buildUpdateBuckets m o rest (bs.insertInto bucket f.columnName bb)) ∧
    (assocGet o.values k = some v → encode f.ty v = .ok b → b.isNull = false →
      buildCreateDoc m o (k :: rest) acc =
        buildCreateDoc m o rest (docInsert acc f.columnName b)) ∧
    (f.columnName ≠ k → docHasKey bs.set f.columnName = false →
      docHasKey (docInsert bs.set k b) k = true ∧
      docHasKey (docInsert bs.set k b) f.columnName = false) := by
  refine ⟨?_, ?_, ?_, ?_⟩
  · intro hu hv he; simp [buildUpdateBuckets, hf, hu, hv, he]
  · intro hu hr; simp [buildUpdateBuckets, hf, hu, hr]
  · intro hv he hn; simp [buildCreateDoc, hf, hv, he, hn]
  · intro hne hcol
    refine ⟨docHasKey_docInsert_self _ _ _, ?_⟩
    rw [docHasKey_docInsert_other _ _ _ _ hne]
    exact hcol

/-- C10 witness: on a field stored at column `db_age` but named `age`, the
non-atomic update step files the entry in `$set` under `age`, and the
resulting document has a key `age` and no key `db_age`. -/
theorem c10_update_keying_witness :
    (buildUpdateBuckets m10 o10 ["age"] ⟨[], [], [], [], []⟩ =
      buildUpdateBuckets m10 o10 []
        ((⟨[], [], [], [], []⟩ : UpdateBuckets).insertInto .set "age" (.int32 3))) ∧
    docHasKey (docInsert [] "age" (.int32 3)) "age" = true ∧
    docHasKey (docInsert [] "age" (.int32 3)) "db_age" = false := by
  obtain ⟨h1, -, -, h4⟩ :=
    c10_update_keying m10 o10 "age" [] ⟨[], [], [], [], []⟩ []
      ⟨"age", "db_age", .int, false⟩ "" (.int 0) (.int 3) (.int32 3) .null
      BucketId.set rfl
  have h1' := h1 rfl rfl rfl
  have h4' := h4 (by decide) rfl
  exact ⟨by simpa using h1', h4'.1, h4'.2⟩

private theorem find_set_self {α : Type} (k : String) (v : α) :
    ∀ kvs : List (String × α), kvs.any (fun kv => kv.1 = k) = true →
      ((kvs.map (fun kv => if kv.1 = k then (k, v) else kv)).find?
        (fun kv => kv.1 = k)) = some (k, v) := by
  intro kvs
  induction kvs with
  | nil => simp
  | cons kv rest ih =>
    intro h
    by_cases h0 : kv.1 = k
    · simp [h0]
    · have hrest : rest.any (fun kv => kv.1 = k) = true := by simpa [h0] using h
      simpa [h0] using ih hrest

private theorem find_set_ne {α : Type} (k k' : String) (v : α) (hne : k' ≠ k) :
    ∀ kvs : List (String × α),
      ((kvs.map (fun kv => if kv.1 = k then (k, v) else kv)).find?
        (fun kv => kv.1 = k')) = kvs.find? (fun kv => kv.1 = k') := by
  intro kvs
  induction kvs with
  | nil => simp
  | cons kv rest ih =>
    by_cases h0 : kv.1 = k
    · have h2 : ¬ (k = k') := fun hh => hne hh.symm
      rw [List.map_cons, if_pos h0,
        List.find?_cons_of_neg _ (by simpa using h2),
        List.find?_cons_of_neg _ (by simp [h0, h2]), ih]
    · by_cases h1 : kv.1 = k'
      · rw [List.map_cons, if_neg h0,
          List.find?_cons_of_pos _ (by simpa using h1),
          List.find?_cons_of_pos _ (by simpa using h1)]
      · rw [List.map_cons, if_neg h0,
          List.find?_cons_of_neg _ (by simpa using h1),
          List.find?_cons_of_neg _ (by simpa using h1), ih]

private theorem find_none_of_any_false {α : Type} (p : (String × α) → Bool)
    (kvs : List (String × α)) (h : kvs.any p = false) : kvs.find? p = none := by
  rw [List.find?_eq_none]
  intro a ha hpa
  have htrue : kvs.any p = true := List.any_eq_true.mpr ⟨a, ha, hpa⟩
  rw [h] at htrue
  cases htrue

private theorem assocGet_assocSet_self {α : Type} (k : String) (v : α)
    (kvs : List (String × α)) : assocGet (assocSet kvs k v) k = some v := by
  by_cases h : kvs.any (fun kv => kv.1 = k)
  · simp [assocSet, h, assocGet, find_set_self k v kvs h]
  · have hnone := find_none_of_any_false (fun kv => kv.1 = k) kvs
      (by simpa only [Bool.not_eq_true] using h)
    simp [assocSet, h, assocGet, List.find?_append, hnone]

private theorem assocGet_assocSet_ne {α : Type} (k k' : String) (v : α)
    (hne : k' ≠ k) (kvs : List (String × α)) :
    assocGet (assocSet kvs k v) k' = assocGet kvs k' := by
  by_cases h : kvs.any (fun kv => kv.1 = k)
  · simp [assocSet, h, assocGet, find_set_ne k k' v hne kvs]
  · have : ¬ (k = k') := fun hh => hne hh.symm
    simp [assocSet, h, assocGet, List.find?_append, this]

private theorem applyReturnNew_preserves (ns : NamespaceModel) (m : ModelDef)
    (rdoc : Doc) :
    ∀ (entries : List (String × (String × Value))) (vals vals' : List (String × Value)),
      applyReturnNew ns m rdoc entries vals = .ok vals' →
      ∀ k, k ∉ entries.map Prod.fst → assocGet vals' k = assocGet vals k := by
  intro entries
  induction entries with
  | nil =>
    intro vals vals' h k _
    simp only [applyReturnNew] at h
    cases h
    rfl
  | cons e rest ih =>
    intro vals vals' h k hk
    obtain ⟨k₀, u⟩ := e
    cases hd : docGet rdoc k₀ with
    | none => simp [applyReturnNew, hd] at h
    | some b =>
      cases hf : m.field k₀ with
      | none => simp [applyReturnNew, hd, hf] at h
      | some f =>
        cases hdec : decode ns m.name f.ty f.optional b [] with
        | ok v =>
          simp only [applyReturnNew, hd, hf, hdec] at h
          simp only [List.map_cons, List.mem_cons, not_or] at hk
          rw [ih _ _ h k hk.2]
          exact assocGet_assocSet_ne k₀ k v hk.1 vals
        | err e => simp [applyReturnNew, hd, hf, hdec] at h
        | panic msg => simp [applyReturnNew, hd, hf, hdec] at h

private theorem applyReturnNew_decodes (ns : NamespaceModel) (m : ModelDef)
    (rdoc : Doc) :
    ∀ (entries : List (String × (String × Value))) (vals vals' : List (String × Value)),
      (entries.map Prod.fst).Nodup →
      applyReturnNew ns m rdoc entries vals = .ok vals' →
      ∀ k ∈ entries.map Prod.fst,
        ∃ b f v, docGet rdoc k = some b ∧ m.field k = some f ∧
          decode ns m.name f.ty f.optional b [] = .ok v ∧
          assocGet vals' k = some v := by
  intro entries
  induction entries with
  | nil => intro vals vals' _ _ k hk; simp at hk
  | cons e rest ih =>
    intro vals vals' hnd h k hk
    obtain ⟨k₀, u⟩ := e
    cases hd : docGet rdoc k₀ with
    | none => simp [applyReturnNew, hd] at h
    | some b =>
      cases hf : m.field k₀ with
      | none => simp [applyReturnNew, hd, hf] at h
      | some f =>
        cases hdec : decode ns m.name f.ty f.optional b [] with
        | ok v =>
          simp only [applyReturnNew, hd, hf, hdec] at h
          simp only [List.map_cons, List.mem_cons] at hk
          simp only [List.map_cons, List.nodup_cons] at hnd
          rcases hk with hk | hk
          · subst hk
            refine ⟨b, f, v, hd, hf, hdec, ?_⟩
            rw [applyReturnNew_preserves ns m rdoc rest _ _ h k hnd.1]
            exact assocGet_assocSet_self k v vals
          · exact ih _ _ hnd.2 h k hk
        | err e => simp [applyReturnNew, hd, hf, hdec] at h
        | panic msg => simp [applyReturnNew, hd, hf, hdec] at h

private theorem assembleUpdate_snd (bs : UpdateBuckets) :
    (assembleUpdate bs).2 = (!bs.inc.isEmpty || !bs.mul.isEmpty || !bs.push.isEmpty) :=
  rfl

private theorem assembleUpdate_nonempty_of_returnNew (bs : UpdateBuckets)
    (h : (assembleUpdate bs).2 = true) : (assembleUpdate bs).1.isEmpty = false := by
  by_cases hi : bs.inc.isEmpty <;> by_cases hm : bs.mul.isEmpty <;>
    by_cases hp : bs.push.isEmpty <;>
    simp_all [assembleUpdate, List.isEmpty_iff, List.append_eq_nil]

/-- C4: with the buckets built and the identifier reduced to a filter
document, `update_object` (i) performs no driver call and succeeds when the
assembled update document is entirely empty; (ii) issues
`find_one_and_update` with `ReturnDocument::After` whenever one of the
`$inc`/`$mul`/`$push` buckets is non-empty; (iii) issues a plain
`update_one` when all three are empty and the document is non-empty; and
(iv) after the find-one-and-update path, every key of the atomic-updator
map has been re-decoded from the server-returned document into the
object's value map. -/
theorem c4_update_write_decision (ns : NamespaceModel) (m : ModelDef)
    (o : ObjectState) (bs : UpdateBuckets) (filter rdoc : Doc)
    (vals' : List (String × Value))
    (hb : buildUpdateBuckets m o o.keysForSave ⟨[], [], [], [], []⟩ = .ok bs)
    (hid : teonValueToBson o.dbIdentifier = some (.document filter)) :
    ((assembleUpdate bs).1.isEmpty = true → updateDecision m o = .ok .noop) ∧
    ((bs.inc.isEmpty = false ∨ bs.mul.isEmpty = false ∨ bs.push.isEmpty = false) →
      updateDecision m o = .ok (.findOneAndUpdate filter (assembleUpdate bs).1 true)) ∧
    (bs.inc.isEmpty = true → bs.mul.isEmpty = true → bs.push.isEmpty = true →
      (assembleUpdate bs).1.isEmpty = false →
      updateDecision m o = .ok (.updateOne filter (assembleUpdate bs).1)) ∧
    ((o.atomicUpdators.map Prod.fst).Nodup →
      applyReturnNew ns m rdoc o.atomicUpdators o.values = .ok vals' →
      ∀ k ∈ o.atomicUpdators.map Prod.fst,
        ∃ b f v, docGet rdoc k = some b ∧ m.field k = some f ∧
          decode ns m.name f.ty f.optional b [] = .ok v ∧
          assocGet vals' k = some v) := by
  refine ⟨?_, ?_, ?_, ?_⟩
  · intro hempty
    simp [updateDecision, hid, hb, hempty]
  · intro hany
    have hrn : (assembleUpdate bs).2 = true := by
      rw [assembleUpdate_snd]
      rcases hany with h | h | h <;> simp [h]
    have hne := assembleUpdate_nonempty_of_returnNew bs hrn
    simp [updateDecision, hid, hb, hne, hrn]
  · intro hi hm hp hne
    have hrn : (assembleUpdate bs).2 = false := by
      rw [assembleUpdate_snd, hi, hm, hp]; rfl
    simp [updateDecision, hid, hb, hne, hrn]
  · intro hnd ha
    exact applyReturnNew_decodes ns m rdoc o.atomicUpdators o.values vals' hnd ha

/-- C4 witness: on the `{increment: 5}` object the decision is
`find_one_and_update` with `returnDocument: After` and the wire document
`{"$inc": {"counter": 5}}`, and the write-back decodes `counter` from the
returned document into the object. -/
theorem c4_update_write_decision_witness :
    updateDecision m4 o4 = .ok (.findOneAndUpdate [("_id", Bson.objectId "abc")]
      [("$inc", Bson.document [("counter", Bson.int32 5)])] true) ∧
    (∃ b f v, docGet rdoc4 "counter" = some b ∧ m4.field "counter" = some f ∧
      decode ⟨[]⟩ m4.name f.ty f.optional b [] = .ok v ∧
      assocGet vals4 "counter" = some v) := by
  obtain ⟨-, h2, -, h4⟩ :=
    c4_update_write_decision ⟨[]⟩ m4 o4 bs4 [("_id", .objectId "abc")] rdoc4 vals4
      rfl rfl
  refine ⟨?_, ?_⟩
  · simpa [assembleUpdate, bs4] using h2 (Or.inl rfl)
  · exact h4 (by simp [o4]) rfl "counter" (by simp [o4])

private theorem createEntryOk_wireKey (m : ModelDef) (o : ObjectState)
    (k w : String) (b : Bson) (h : createEntryOk m o k = some (w, b)) :
    createWireKey m k = some w := by
  cases hf : m.field k with
  | some f =>
    cases hv : assocGet o.values k with
    | none => simp [createEntryOk, hf, hv] at h
    | some v =>
      cases he : encode f.ty v with
      | ok bb =>
        by_cases hn : bb.isNull
        · simp [createEntryOk, hf, hv, he, hn] at h
        · simp only [createEntryOk, hf, hv, he, hn, if_false, Bool.false_eq_true,
            Option.some.injEq, Prod.mk.injEq] at h
          simp [createWireKey, hf, h.1]
      | err e => simp [createEntryOk, hf, hv, he] at h
      | panic msg => simp [createEntryOk, hf, hv, he] at h
  | none =>
    cases hp : m.property k with
    | some p =>
      cases hv : assocGet o.propertyValues k with
      | none => simp [createEntryOk, hf, hp, hv] at h
      | some v =>
        cases he : encode p.ty v with
        | ok bb =>
          by_cases hn : bb.isNull
          · simp [createEntryOk, hf, hp, hv, he, hn] at h
          · simp only [createEntryOk, hf, hp, hv, he, hn, if_false, Bool.false_eq_true,
              Option.some.injEq, Prod.mk.injEq] at h
            obtain ⟨hw, -⟩ := h
            subst hw
            simp [createWireKey, hf, hp]
        | err e => simp [createEntryOk, hf, hp, hv, he] at h
        | panic msg => simp [createEntryOk, hf, hp, hv, he] at h
    | none => simp [createEntryOk, hf, hp] at h

private theorem createEntryOk_none_of_wireKey_none (m : ModelDef)
    (o : ObjectState) (k : String) (h : createWireKey m k = none) :
    createEntryOk m o k = none := by
  cases hf : m.field k with
  | some f => simp [createWireKey, hf] at h
  | none =>
    cases hp : m.property k with
    | some p => simp [createWireKey, hf, hp] at h
    | none => simp [createEntryOk, hf, hp]

private theorem entry_key_mem_wireKeys (m : ModelDef) (o : ObjectState) :
    ∀ (keys : List String) (w : String) (b : Bson),
      (w, b) ∈ keys.filterMap (createEntryOk m o) →
      w ∈ keys.filterMap (createWireKey m) := by
  intro keys w b h
  obtain ⟨k, hk, he⟩ := List.mem_filterMap.mp h
  exact List.mem_filterMap.mpr ⟨k, hk, createEntryOk_wireKey m o k w b he⟩

private theorem docHasKey_append (l₁ l₂ : Doc) (w : String) :
    docHasKey (l₁ ++ l₂) w = (docHasKey l₁ w || docHasKey l₂ w) := by
  simp [docHasKey, List.any_append]

private theorem docInsert_fresh (d : Doc) (k : String) (b : Bson)
    (h : docHasKey d k = false) : docInsert d k b = d ++ [(k, b)] := by
  simp only [docHasKey] at h
  simp [docInsert, h]

private theorem hasKey_filterMap_entry (m : ModelDef) (o : ObjectState) :
    ∀ (keys : List String) (k wk : String),
      (keys.filterMap (createWireKey m)).Nodup →
      k ∈ keys → createWireKey m k = some wk →
      docHasKey (keys.filterMap (createEntryOk m o)) wk =
        (createEntryOk m o k).isSome := by
  intro keys
  induction keys with
  | nil => intro k wk _ hk _; simp at hk
  | cons k₀ rest ih =>
    intro k wk hnd hk hwk
    cases cw₀ : createWireKey m k₀ with
    | none =>
      have ce₀ := createEntryOk_none_of_wireKey_none m o k₀ cw₀
      rw [List.filterMap_cons_none cw₀] at hnd
      rcases List.mem_cons.mp hk with hk | hk
      · subst hk
        rw [hwk] at cw₀
        cases cw₀
      · rw [List.filterMap_cons_none ce₀]
        exact ih k wk hnd hk hwk
    | some w₀ =>
      rw [List.filterMap_cons_some cw₀] at hnd
      have hw₀ : w₀ ∉ rest.filterMap (createWireKey m) := (List.nodup_cons.mp hnd).1
      have hndrest := (List.nodup_cons.mp hnd).2
      cases ce₀ : createEntryOk m o k₀ with
      | some e =>
        obtain ⟨we, be⟩ := e
        have hwe : we = w₀ := by
          have := createEntryOk_wireKey m o k₀ we be ce₀
          rw [cw₀] at this
          cases this
          rfl
        subst hwe
        rw [List.filterMap_cons_some ce₀]
        rcases List.mem_cons.mp hk with hk | hk
        · subst hk
          rw [hwk] at cw₀
          cases cw₀
          simp [docHasKey, ce₀]
        · have hwkmem : wk ∈ rest.filterMap (createWireKey m) :=
            List.mem_filterMap.mpr ⟨k, hk, hwk⟩
          have hne : ¬ (we = wk) := fun hh => hw₀ (hh ▸ hwkmem)
          have hstep : docHasKey ((we, be) :: rest.filterMap (createEntryOk m o)) wk
              = docHasKey (rest.filterMap (createEntryOk m o)) wk := by
            simp [docHasKey, hne]
          rw [hstep]
          exact ih k wk hndrest hk hwk
      | none =>
        rw [List.filterMap_cons_none ce₀]
        rcases List.mem_cons.mp hk with hk | hk
        · subst hk
          rw [hwk] at cw₀
          cases cw₀
          rw [ce₀]
          simp only [Option.isSome_none]
          by_contra hcontra
          have htrue : docHasKey (rest.filterMap (createEntryOk m o)) wk = true := by
            revert hcontra
            cases docHasKey (rest.filterMap (createEntryOk m o)) wk <;> simp
          obtain ⟨kv, hkv, hkvw⟩ := List.any_eq_true.mp htrue
          obtain ⟨w', b'⟩ := kv
          simp only [decide_eq_true_eq] at hkvw
          subst hkvw
          exact hw₀ (entry_key_mem_wireKeys m o rest _ b' hkv)
        · exact ih k wk hndrest hk hwk

private theorem buildCreateDoc_chara (m : ModelDef) (o : ObjectState) :
    ∀ (keys : List String) (acc : Doc) (d : Doc),
      (keys.filterMap (createWireKey m)).Nodup →
      (∀ w ∈ keys.filterMap (createWireKey m), docHasKey acc w = false) →
      buildCreateDoc m o keys acc = .ok d →
      d = acc ++ keys.filterMap (createEntryOk m o) := by
  intro keys
  induction keys with
  | nil =>
    intro acc d _ _ h
    simp only [buildCreateDoc] at h
    cases h
    simp
  | cons k₀ rest ih =>
    intro acc d hnd hacc h
    cases hf : m.field k₀ with
    | some f =>
      cases hv : assocGet o.values k₀ with
      | none => simp [buildCreateDoc, hf, hv] at h
      | some v =>
        cases he : encode f.ty v with
        | ok b =>
          have cw₀ : createWireKey m k₀ = some f.columnName := by
            simp [createWireKey, hf]
          rw [List.filterMap_cons_some cw₀] at hnd hacc
          have hndrest := (List.nodup_cons.mp hnd).2
          have hw₀ : f.columnName ∉ rest.filterMap (createWireKey m) :=
            (List.nodup_cons.mp hnd).1
          have haccrest : ∀ w ∈ rest.filterMap (createWireKey m),
              docHasKey acc w = false := fun w hw => hacc w (List.mem_cons_of_mem _ hw)
          by_cases hn : b.isNull
          · have ce₀ : createEntryOk m o k₀ = none := by
              simp [createEntryOk, hf, hv, he, hn]
            have hstep : buildCreateDoc m o (k₀ :: rest) acc
                = buildCreateDoc m o rest acc := by
              simp [buildCreateDoc, hf, hv, he, hn]
            rw [hstep] at h
            rw [List.filterMap_cons_none ce₀]
            exact ih acc d hndrest haccrest h
          · have ce₀ : createEntryOk m o k₀ = some (f.columnName, b) := by
              simp [createEntryOk, hf, hv, he, hn]
            have hfresh : docHasKey acc f.columnName = false :=
              hacc _ (List.mem_cons_self _ _)
            have hstep : buildCreateDoc m o (k₀ :: rest) acc
                = buildCreateDoc m o rest (docInsert acc f.columnName b) := by
              simp [buildCreateDoc, hf, hv, he, hn]
            rw [hstep, docInsert_fresh acc f.columnName b hfresh] at h
            have haccnew : ∀ w ∈ rest.filterMap (createWireKey m),
                docHasKey (acc ++ [(f.columnName, b)]) w = false := by
              intro w hw
              have h1 := haccrest w hw
              have h2 : ¬ (f.columnName = w) := fun hh => hw₀ (hh ▸ hw)
              have h3 : docHasKey [(f.columnName, b)] w = false := by
                simp [docHasKey, h2]
              rw [docHasKey_append, h1, h3]
              rfl
            have := ih (acc ++ [(f.columnName, b)]) d hndrest haccnew h
            rw [this, List.filterMap_cons_some ce₀]
            simp
        | err e => simp [buildCreateDoc, hf, hv, he] at h
        | panic msg => simp [buildCreateDoc, hf, hv, he] at h
    | none =>
      cases hp : m.property k₀ with
      | some p =>
        cases hv : assocGet o.propertyValues k₀ with
        | none => simp [buildCreateDoc, hf, hp, hv] at h
        | some v =>
          cases he : encode p.ty v with
          | ok b =>
            have cw₀ : createWireKey m k₀ = some k₀ := by
              simp [createWireKey, hf, hp]
            rw [List.filterMap_cons_some cw₀] at hnd hacc
            have hndrest := (List.nodup_cons.mp hnd).2
            have hw₀ : k₀ ∉ rest.filterMap (createWireKey m) :=
              (List.nodup_cons.mp hnd).1
            have haccrest : ∀ w ∈ rest.filterMap (createWireKey m),
                docHasKey acc w = false := fun w hw => hacc w (List.mem_cons_of_mem _ hw)
            by_cases hn : b.isNull
            · have ce₀ : createEntryOk m o k₀ = none := by
                simp [createEntryOk, hf, hp, hv, he, hn]
              have hstep : buildCreateDoc m o (k₀ :: rest) acc
                  = buildCreateDoc m o rest acc := by
                simp [buildCreateDoc, hf, hp, hv, he, hn]
              rw [hstep] at h
              rw [List.filterMap_cons_none ce₀]
              exact ih acc d hndrest haccrest h
            · have ce₀ : createEntryOk m o k₀ = some (k₀, b) := by
                simp [createEntryOk, hf, hp, hv, he, hn]
              have hfresh : docHasKey acc k₀ = false :=
                hacc _ (List.mem_cons_self _ _)
              have hstep : buildCreateDoc m o (k₀ :: rest) acc
                  = buildCreateDoc m o rest (docInsert acc k₀ b) := by
                simp [buildCreateDoc, hf, hp, hv, he, hn]
              rw [hstep, docInsert_fresh acc k₀ b hfresh] at h
              have haccnew : ∀ w ∈ rest.filterMap (createWireKey m),
                  docHasKey (acc ++ [(k₀, b)]) w = false := by
                intro w hw
                have h1 := haccrest w hw
                have h2 : ¬ (k₀ = w) := fun hh => hw₀ (hh ▸ hw)
                have h3 : docHasKey [(k₀, b)] w = false := by
                  simp [docHasKey, h2]
                rw [docHasKey_append, h1, h3]
                rfl
              have := ih (acc ++ [(k₀, b)]) d hndrest haccnew h
              rw [this, List.filterMap_cons_some ce₀]
              simp
          | err e => simp [buildCreateDoc, hf, hp, hv, he] at h
          | panic msg => simp [buildCreateDoc, hf, hp, hv, he] at h
      | none =>
        have cw₀ : createWireKey m k₀ = none := by
          simp [createWireKey, hf, hp]
        have ce₀ := createEntryOk_none_of_wireKey_none m o k₀ cw₀
        rw [List.filterMap_cons_none cw₀] at hnd hacc
        simp only [buildCreateDoc, hf, hp] at h
        rw [List.filterMap_cons_none ce₀]
        exact ih acc d hnd hacc h

private theorem buildCreateDoc_ok_components (m : ModelDef) (o : ObjectState) :
    ∀ (keys : List String) (acc d : Doc), buildCreateDoc m o keys acc = .ok d →
      ∀ k ∈ keys,
        (∀ f, m.field k = some f →
          ∃ v b, assocGet o.values k = some v ∧ encode f.ty v = .ok b) ∧
        (∀ p, m.field k = none → m.property k = some p →
          ∃ v b, assocGet o.propertyValues k = some v ∧ encode p.ty v = .ok b) := by
  intro keys
  induction keys with
  | nil => intro acc d _ k hk; simp at hk
  | cons k₀ rest ih =>
    intro acc d h k hk
    cases hf : m.field k₀ with
    | some f₀ =>
      cases hv : assocGet o.values k₀ with
      | none => simp [buildCreateDoc, hf, hv] at h
      | some v₀ =>
        cases he : encode f₀.ty v₀ with
        | ok b₀ =>
          simp only [buildCreateDoc, hf, hv, he] at h
          rcases List.mem_cons.mp hk with hk | hk
          · subst hk
            refine ⟨fun f hff => ?_, fun p hffn _ => ?_⟩
            · rw [hf] at hff; cases hff; exact ⟨v₀, b₀, hv, he⟩
            · rw [hf] at hffn; cases hffn
          · exact ih _ _ h k hk
        | err e => simp [buildCreateDoc, hf, hv, he] at h
        | panic msg => simp [buildCreateDoc, hf, hv, he] at h
    | none =>
      cases hp : m.property k₀ with
      | some p₀ =>
        cases hv : assocGet o.propertyValues k₀ with
        | none => simp [buildCreateDoc, hf, hp, hv] at h
        | some v₀ =>
          cases he : encode p₀.ty v₀ with
          | ok b₀ =>
            simp only [buildCreateDoc, hf, hp, hv, he] at h
            rcases List.mem_cons.mp hk with hk | hk
            · subst hk
              refine ⟨fun f hff => ?_, fun p _ hpp => ?_⟩
              · rw [hf] at hff; cases hff
              · rw [hp] at hpp; cases hpp; exact ⟨v₀, b₀, hv, he⟩
            · exact ih _ _ h k hk
          | err e => simp [buildCreateDoc, hf, hp, hv, he] at h
          | panic msg => simp [buildCreateDoc, hf, hp, hv, he] at h
      | none =>
        simp only [buildCreateDoc, hf, hp] at h
        rcases List.mem_cons.mp hk with hk | hk
        · subst hk
          refine ⟨fun f hff => ?_, fun p _ hpp => ?_⟩
          · rw [hf] at hff; cases hff
          · rw [hp] at hpp; cases hpp
        · exact ih _ _ h k hk

/-- C7: when the insert document of `create_object` is built successfully
(and the wire keys of the save keys are distinct), a field key's column
name appears in the document exactly when its encoded BSON is non-`Null`,
a property key appears under the save key exactly when its encoded BSON is
non-`Null`, and every document key originates from some save key. -/
theorem c7_create_null_elision (m : ModelDef) (o : ObjectState) (d : Doc)
    (hnd : (o.keysForSave.filterMap (createWireKey m)).Nodup)
    (hd : createDoc m o = .ok d) :
    (∀ k f, k ∈ o.keysForSave → m.field k = some f →
      ∃ v b, assocGet o.values k = some v ∧ encode f.ty v = .ok b ∧
        docHasKey d f.columnName = !b.isNull) ∧
    (∀ k p, k ∈ o.keysForSave → m.field k = none → m.property k = some p →
      ∃ v b, assocGet o.propertyValues k = some v ∧ encode p.ty v = .ok b ∧
        docHasKey d k = !b.isNull) ∧
    (∀ w, docHasKey d w = true → ∃ k ∈ o.keysForSave, createWireKey m k = some w) := by
  have hchara := buildCreateDoc_chara m o o.keysForSave [] d hnd
    (by intro w _; rfl) hd
  have hcomp := buildCreateDoc_ok_components m o o.keysForSave [] d hd
  rw [List.nil_append] at hchara
  subst hchara
  refine ⟨?_, ?_, ?_⟩
  · intro k f hk hf
    obtain ⟨v, b, hv, he⟩ := (hcomp k hk).1 f hf
    refine ⟨v, b, hv, he, ?_⟩
    have cwk : createWireKey m k = some f.columnName := by simp [createWireKey, hf]
    rw [hasKey_filterMap_entry m o o.keysForSave k f.columnName hnd hk cwk]
    by_cases hn : b.isNull
    · simp [createEntryOk, hf, hv, he, hn]
    · simp [createEntryOk, hf, hv, he, hn]
  · intro k p hk hf hp
    obtain ⟨v, b, hv, he⟩ := (hcomp k hk).2 p hf hp
    refine ⟨v, b, hv, he, ?_⟩
    have cwk : createWireKey m k = some k := by simp [createWireKey, hf, hp]
    rw [hasKey_filterMap_entry m o o.keysForSave k k hnd hk cwk]
    by_cases hn : b.isNull
    · simp [createEntryOk, hf, hp, hv, he, hn]
    · simp [createEntryOk, hf, hp, hv, he, hn]
  · intro w hw
    obtain ⟨kv, hkv, hkvw⟩ := List.any_eq_true.mp hw
    obtain ⟨w', b'⟩ := kv
    simp only [decide_eq_true_eq] at hkvw
    subst hkvw
    obtain ⟨k, hk, he⟩ := List.mem_filterMap.mp hkv
    exact ⟨k, hk, createEntryOk_wireKey m o k _ b' he⟩

/-- C7 witness: a model with a non-null int field, a null optional field
and a property — the insert document keeps exactly the non-null entries. -/
theorem c7_create_null_elision_witness :
    (∃ v b, assocGet
        [("age", Value.int 3), ("nick", Value.null)] "age" = some v ∧
      encode Ty.int v = .ok b ∧
      docHasKey [("db_age", Bson.int32 3)] "db_age" = !b.isNull) ∧
    (∃ v b, assocGet
        [("age", Value.int 3), ("nick", Value.null)] "nick" = some v ∧
      encode Ty.string v = .ok b ∧
      docHasKey [("db_age", Bson.int32 3)] "nick" = !b.isNull) := by
  have h := c7_create_null_elision
    ⟨"User", "users",
      [⟨"age", "db_age", Ty.int, false⟩, ⟨"nick", "nick", Ty.string, true⟩],
      [], [], []⟩
    ⟨["age", "nick"], [("age", Value.int 3), ("nick", Value.null)], [], [],
      .null, true⟩
    [("db_age", Bson.int32 3)] (by simp [createWireKey, ModelDef.field]) rfl
  refine ⟨?_, ?_⟩
  · exact h.1 "age" ⟨"age", "db_age", Ty.int, false⟩ (by simp) rfl
  · exact h.1 "nick" ⟨"nick", "nick", Ty.string, true⟩ (by simp) rfl

/-- C8: a write error with code 11000 is translated through the two regex
captures — the full offending key expression (`dup key: (.+)`) and the
offending column name (`dup key: \x7b (.+?):`): when the column resolves on
the model the error is `unique_value_duplicated` with the path extended by
the field's runtime name and the full capture, otherwise with the
unextended path; any other write error code, a write-concern error and any
other write failure map to `unknown_database_write_error`. -/
theorem c8_duplicate_key_translation (m : ModelDef) (path : KeyPath)
    (msg full col : String) (code : Int) (f : FieldDef) :
    (dupFullCapture msg = some full → dupColCapture msg = some col →
      m.fieldWithColumnName col = some f →
      handleWriteError m path (.write (.writeError 11000 msg)) =
        .ok (.uniqueValueDuplicated (path ++ [.key f.name]) full)) ∧
    (dupFullCapture msg = some full → dupColCapture msg = some col →
      m.fieldWithColumnName col = none →
      handleWriteError m path (.write (.writeError 11000 msg)) =
        .ok (.uniqueValueDuplicated path full)) ∧
    (code ≠ 11000 →
      handleWriteError m path (.write (.writeError code msg)) =
        .ok (.unknownDatabaseWriteError path msg)) ∧
    (handleWriteError m path (.write (.writeConcernError msg)) =
      .ok (.unknownDatabaseWriteError path msg)) ∧
    (handleWriteError m path (.write .otherFailure) =
      .ok (.unknownDatabaseWriteError path "unknown write failure")) := by
  refine ⟨?_, ?_, ?_, ?_, ?_⟩
  · intro hfull hcol hf
    simp [handleWriteError, hfull, hcol, hf]
  · intro hfull hcol hf
    simp [handleWriteError, hfull, hcol, hf]
  · intro hcode
    simp [handleWriteError, hcode]
  · simp [handleWriteError]
  · simp [handleWriteError]

/-- C8 witness: the concrete duplicate-key message translates to
`unique_value_duplicated` with path extended by `email` and the full
capture, and a non-11000 write error to `unknown_database_write_error`. -/
theorem c8_duplicate_key_translation_witness :
    handleWriteError m8 [] (.write (.writeError 11000 msg8)) =
      .ok (.uniqueValueDuplicated [.key "email"] "\x7b email: \"a\" \x7d") ∧
    handleWriteError m8 [] (.write (.writeError 2 "boom")) =
      .ok (.unknownDatabaseWriteError [] "boom") := by
  obtain ⟨h1, -, -, -, -⟩ :=
    c8_duplicate_key_translation m8 [] msg8 "\x7b email: \"a\" \x7d" "email" 2
      ⟨"email", "email", .string, false⟩
  obtain ⟨-, -, h3, -, -⟩ :=
    c8_duplicate_key_translation m8 [] "boom" "x" "x" 2
      ⟨"email", "email", .string, false⟩
  refine ⟨?_, ?_⟩
  · have := h1 (by decide) (by decide) rfl
    simpa using this
  · exact h3 (by decide)

private theorem canon_decode_list (ns : NamespaceModel) (modelName : String)
    (inner : Ty) (innerOpt : Bool) :
    ∀ (xs : List Value),
      (∀ x ∈ xs, ∀ path, ∃ b, teonValueToBson x = some b ∧
        decode ns modelName inner innerOpt b path = .ok x) →
      ∀ (path : KeyPath) (i : Nat), ∃ bs, teonListToBson xs = some bs ∧
        decodeList ns modelName inner innerOpt path i bs = .ok xs := by
  intro xs
  induction xs with
  | nil => intro _ _ _; exact ⟨[], rfl, rfl⟩
  | cons x rest ihx =>
    intro hx path i
    obtain ⟨b, hb, hd⟩ := hx x (by simp) (path ++ [.idx i])
    obtain ⟨bs, hbs, hds⟩ := ihx (fun y hy => hx y (by simp [hy])) path (i + 1)
    refine ⟨b :: bs, ?_, ?_⟩
    · simp [teonListToBson, hb, hbs]
    · simp [decodeList, hd, hds]

private theorem canon_decode_entries (ns : NamespaceModel) (modelName : String)
    (inner : Ty) (innerOpt : Bool) :
    ∀ (kvs : List (String × Value)),
      (∀ kv ∈ kvs, ∀ path, ∃ b, teonValueToBson kv.2 = some b ∧
        decode ns modelName inner innerOpt b path = .ok kv.2) →
      ∀ (path : KeyPath), ∃ bs, teonEntriesToBson kvs = some bs ∧
        decodeEntries ns modelName inner innerOpt path bs = .ok kvs := by
  intro kvs
  induction kvs with
  | nil => intro _ _; exact ⟨[], rfl, rfl⟩
  | cons kv rest ihx =>
    intro hx path
    obtain ⟨k, v⟩ := kv
    obtain ⟨b, hb, hd⟩ := hx (k, v) (by simp) (path ++ [.key k])
    obtain ⟨bs, hbs, hds⟩ := ihx (fun y hy => hx y (by simp [hy])) path
    refine ⟨(k, b) :: bs, ?_, ?_⟩
    · simp [teonEntriesToBson, hb, hbs]
    · simp [decodeEntries, hd, hds]

private theorem decode_enum_eq (ns : NamespaceModel) (mn : String)
    (p : List String) (opt : Bool) (s : String) (path : KeyPath) :
    decode ns mn (.enumVariant p) opt (.string s) path =
      (match ns.enumAtPath p with
       | none => (.panic "called Option::unwrap on a None value" : Res Value)
       | some e =>
         if s ∈ e.memberNames then .ok (.string s)
         else .err (.recordDecodingError mn path (String.intercalate "." e.path))) :=
  rfl

private theorem decode_array_eq (ns : NamespaceModel) (mn : String)
    (inner : Ty) (innerOpt opt : Bool) (bs : List Bson) (path : KeyPath) :
    decode ns mn (.array inner innerOpt) opt (.array bs) path =
      (match decodeList ns mn inner innerOpt path 0 bs with
       | .ok vs => (.ok (.array vs) : Res Value)
       | .err e => .err e
       | .panic m => .panic m) :=
  rfl

private theorem decode_dict_eq (ns : NamespaceModel) (mn : String)
    (inner : Ty) (innerOpt opt : Bool) (bs : List (String × Bson)) (path : KeyPath) :
    decode ns mn (.dict inner innerOpt) opt (.document bs) path =
      (match decodeEntries ns mn inner innerOpt path bs with
       | .ok vs => (.ok (.dictionary vs) : Res Value)
       | .err e => .err e
       | .panic m => .panic m) :=
  rfl

private theorem canon_decode (ns : NamespaceModel) (modelName : String)
    {ty : Ty} {opt : Bool} {v : Value} (h : WellTyped ns ty opt v) :
    ∀ path, ∃ b, teonValueToBson v = some b ∧
      decode ns modelName ty opt b path = .ok v := by
  induction h with
  | null ty => intro path; exact ⟨.null, rfl, rfl⟩
  | int i opt => intro path; exact ⟨.int32 i, rfl, rfl⟩
  | int64 i opt => intro path; exact ⟨.int64 i, rfl, rfl⟩
  | float32 q opt => intro path; exact ⟨.double q, rfl, rfl⟩
  | float q opt => intro path; exact ⟨.double q, rfl, rfl⟩
  | bool b opt => intro path; exact ⟨.boolean b, rfl, rfl⟩
  | string s opt => intro path; exact ⟨.string s, rfl, rfl⟩
  | objectId s opt => intro path; exact ⟨.objectId s, rfl, rfl⟩
  | date d opt =>
    intro path
    refine ⟨.datetime (d * millisPerDay), rfl, ?_⟩
    have hdiv : Int.fdiv (d * millisPerDay) millisPerDay = d :=
      Int.mul_fdiv_cancel d (by norm_num [millisPerDay])
    have hstep : decode ns modelName .date opt (.datetime (d * millisPerDay)) path
        = .ok (.date (Int.fdiv (d * millisPerDay) millisPerDay)) := rfl
    rw [hstep, hdiv]
  | dateTime t opt => intro path; exact ⟨.datetime t, rfl, rfl⟩
  | enumVariant p e s opt hfind hmem =>
    intro path
    refine ⟨.string s, rfl, ?_⟩
    rw [decode_enum_eq, hfind]
    simp [hmem]
  | array inner innerOpt opt xs hall ih =>
    intro path
    obtain ⟨bs, hbs, hds⟩ :=
      canon_decode_list ns modelName inner innerOpt xs ih path 0
    refine ⟨.array bs, ?_, ?_⟩
    · have hstep : teonValueToBson (.array xs) = (teonListToBson xs).map Bson.array := rfl
      rw [hstep, hbs]
      rfl
    · rw [decode_array_eq, hds]
  | dict inner innerOpt opt kvs hall ih =>
    intro path
    obtain ⟨bs, hbs, hds⟩ :=
      canon_decode_entries ns modelName inner innerOpt kvs ih path
    refine ⟨.document bs, ?_, ?_⟩
    · have hstep : teonValueToBson (.dictionary kvs)
          = (teonEntriesToBson kvs).map Bson.document := rfl
      rw [hstep, hbs]
      rfl
    · rw [decode_dict_eq, hds]

private theorem encode_canon (ns : NamespaceModel) {ty : Ty} {opt : Bool}
    {v : Value} (h : WellTyped ns ty opt v) (b : Bson)
    (hb : teonValueToBson v = some b) : encode ty v = .ok b := by
  cases ty with
  | int =>
    cases h with
    | null => cases hb; rfl
    | int i _ => cases hb; rfl
  | int64 =>
    cases h with
    | null => cases hb; rfl
    | int64 i _ => cases hb; rfl
  | float32 => simp [encode, hb]
  | float => simp [encode, hb]
  | bool => simp [encode, hb]
  | string => simp [encode, hb]
  | objectId => simp [encode, hb]
  | date => simp [encode, hb]
  | dateTime => simp [encode, hb]
  | decimal => simp [encode, hb]
  | enumVariant p => simp [encode, hb]
  | array inner innerOpt => simp [encode, hb]
  | dict inner innerOpt => simp [encode, hb]

/-- C6: encoding a well-typed value at its declared type and decoding the
result at the same type returns the value unchanged, for every non-Decimal
type (the typing judgment has no `Decimal` inhabitants).  Floats are
modelled exactly, where the `f32 → f64 → f32` widening/narrowing composite
of the codec is the identity. -/
theorem c6_codec_roundtrip (ns : NamespaceModel) (modelName : String)
    {ty : Ty} {opt : Bool} {v : Value} (h : WellTyped ns ty opt v)
    (path : KeyPath) :
    encodeDecode ns modelName ty opt v path = .ok v := by
  obtain ⟨b, hb, hd⟩ := canon_decode ns modelName h path
  have he := encode_canon ns h b hb
  simp [encodeDecode, he, hd]

/-- C6 witness: an array of optional ints containing a null round-trips. -/
theorem c6_codec_roundtrip_witness :
    encodeDecode ⟨[]⟩ "User" (.array .int true) false
      (.array [.int 1, .null]) [] = .ok (.array [.int 1, .null]) :=
  c6_codec_roundtrip ⟨[]⟩ "User"
    (WellTyped.array .int true false [.int 1, .null]
      (by
        intro x hx
        simp only [List.mem_cons, List.not_mem_nil, or_false] at hx
        rcases hx with rfl | rfl
        · exact WellTyped.int 1 true
        · exact WellTyped.null .int)) []

/-- C3, counterexample: four concrete failures of the claimed convergence
and idempotence, one per case the code breaks.
(i) Primary kind (`m3c`): the first run creates the index, but the second
run drops and re-creates it, because `from_index_model` reads the live
index back as kind Unique, never Primary; the declaration is never among
the projected live indexes.
(ii) A field whose `column_name` differs from its runtime name (`m3b`):
the created index carries the column name while the declared item carries
the field name, so the comparison at transaction.rs:409 never succeeds —
again drop/re-create on every run and no convergence.
(iii) A single-key index over the `_id` column (`m3i`): the creation loop
skips it (transaction.rs:434-440), so it never materialises.
(iv) Two declared indexes sharing a name (`m3d`): the review loop resolves
the name to the first declaration only, so the second never materialises —
the state is stable but does not contain it. -/
theorem c3_migrate_counterexample :
    (migrateModel m3c [idLive] = some (live3c₁, [.createIndex "prim"]) ∧
     (migrateModel m3c live3c₁).map Prod.snd
       = some [.dropIndex "prim", .createIndex "prim"] ∧
     (⟨.primary, "prim", [⟨"a", .asc⟩]⟩ : IndexDef) ∈ m3c.indexes ∧
     (⟨.primary, "prim", [⟨"a", .asc⟩]⟩ : IndexDef) ∉
       (live3c₁.filter (fun l => !(isIdIndex l))).map fromIndexModel) ∧
    (migrateModel m3b [idLive] = some (live3b₁, [.createIndex "byAge"]) ∧
     (migrateModel m3b live3b₁).map Prod.snd
       = some [.dropIndex "byAge", .createIndex "byAge"] ∧
     (⟨.unique, "byAge", [⟨"age", .asc⟩]⟩ : IndexDef) ∈ m3b.indexes ∧
     (⟨.unique, "byAge", [⟨"age", .asc⟩]⟩ : IndexDef) ∉
       (live3b₁.filter (fun l => !(isIdIndex l))).map fromIndexModel) ∧
    (migrateModel m3i [idLive] = some ([idLive], []) ∧
     (⟨.unique, "byId", [⟨"_id", .asc⟩]⟩ : IndexDef) ∈ m3i.indexes ∧
     (⟨.unique, "byId", [⟨"_id", .asc⟩]⟩ : IndexDef) ∉
       (([idLive] : List LiveIndex).filter (fun l => !(isIdIndex l))).map fromIndexModel) ∧
    (migrateModel m3d live3d₀ = some (live3d₁, [.dropIndex "n", .createIndex "n"]) ∧
     (migrateModel m3d live3d₁).map Prod.snd = some [] ∧
     (⟨.index, "n", [⟨"a", .asc⟩]⟩ : IndexDef) ∈ m3d.indexes ∧
     (⟨.index, "n", [⟨"a", .asc⟩]⟩ : IndexDef) ∉
       (live3d₁.filter (fun l => !(isIdIndex l))).map fromIndexModel) := by
  refine ⟨⟨by decide, by decide, by decide, by decide⟩,
    ⟨by decide, by decide, by decide, by decide⟩,
    ⟨by decide, by decide, by decide⟩,
    ⟨by decide, by decide, by decide, by decide⟩⟩

private theorem declaredKeys_eq (m : ModelDef) :
    ∀ items : List Item,
      (∀ it ∈ items, ∃ f, m.field it.field = some f ∧ f.columnName = it.field) →
      declaredKeys m items =
        some (items.map (fun it => (it.field, if it.sort = .asc then (1 : Int) else -1))) := by
  intro items
  induction items with
  | nil => intro _; rfl
  | cons it rest ih =>
    intro h
    obtain ⟨f, hff, hcol⟩ := h it (by simp)
    have := ih (fun x hx => h x (by simp [hx]))
    simp [declaredKeys, hff, hcol, this]

private theorem declaredToLive_eq (m : ModelDef) (d : IndexDef)
    (h : ∀ it ∈ d.items, ∃ f, m.field it.field = some f ∧ f.columnName = it.field) :
    declaredToLive m d = some (dLive d) := by
  simp [declaredToLive, declaredKeys_eq m d.items h, dLive]

private theorem fromIndexModel_dLive (d : IndexDef) (hk : d.kind ≠ .primary) :
    fromIndexModel (dLive d) = d := by
  obtain ⟨kind, name, items⟩ := d
  have hmap : (items.map (fun it => (it.field, if it.sort = .asc then (1 : Int) else -1))).map
      (fun kv => (⟨kv.1, if kv.2 = 1 then SortDir.asc else .desc⟩ : Item)) = items := by
    rw [List.map_map]
    have : ∀ it ∈ items,
        ((fun kv => (⟨kv.1, if kv.2 = 1 then SortDir.asc else .desc⟩ : Item)) ∘
          (fun it => (it.field, if it.sort = .asc then (1 : Int) else -1))) it = id it := by
      intro it _
      obtain ⟨fld, srt⟩ := it
      cases srt <;> simp
    rw [List.map_congr_left this, List.map_id]
  cases kind with
  | primary => exact absurd rfl hk
  | unique => simp [fromIndexModel, dLive, hmap]
  | index => simp [fromIndexModel, dLive, hmap]

private theorem dLive_not_id (d : IndexDef)
    (h : ∀ it, d.items = [it] → it.field ≠ "_id") : isIdIndex (dLive d) = false := by
  cases hitems : d.items with
  | nil => simp [isIdIndex, dLive, hitems]
  | cons it rest =>
    cases rest with
    | nil =>
      have hne : it.field ≠ "_id" := h it hitems
      simp [isIdIndex, dLive, hitems]
      intro hfield
      exact absurd hfield hne
    | cons it₂ rest₂ => simp [isIdIndex, dLive, hitems]

private theorem skipIdSingle_false (m : ModelDef) (d : IndexDef)
    (hres : ∀ it ∈ d.items, ∃ f, m.field it.field = some f ∧ f.columnName = it.field)
    (hid1 : ∀ it, d.items = [it] → it.field ≠ "_id") :
    skipIdSingle m d = some false := by
  by_cases hlen : d.items.length = 1
  · cases hitems : d.items with
    | nil => rw [hitems] at hlen; simp at hlen
    | cons it rest =>
      have hrest : rest = [] := by
        rw [hitems] at hlen
        simpa using hlen
      subst hrest
      obtain ⟨f, hff, hcol⟩ := hres it (by simp [hitems])
      have hne : it.field ≠ "_id" := hid1 it hitems
      have hbeq : (f.columnName == "_id") = false := by
        rw [hcol]
        simpa using hne
      simp [skipIdSingle, hlen, hitems, hff, hbeq]
  · simp [skipIdSingle, hlen]

private theorem contains_eq_true_iff (l : List String) (a : String) :
    l.contains a = true ↔ a ∈ l := by
  induction l with
  | nil => simp
  | cons x rest ih => simp [List.contains_cons, ih]

private theorem find_name_unique :
    ∀ (l : List IndexDef), (l.map IndexDef.name).Nodup →
      ∀ d ∈ l, l.find? (fun x => x.name = d.name) = some d := by
  intro l
  induction l with
  | nil => intro _ d hd; simp at hd
  | cons x rest ih =>
    intro hnd d hd
    simp only [List.map_cons, List.nodup_cons] at hnd
    rcases List.mem_cons.mp hd with rfl | hd
    · rw [List.find?_cons_of_pos _ (by simp)]
    · have hxname : ¬ (x.name = d.name) := by
        intro hh
        exact hnd.1 (hh ▸ List.mem_map_of_mem IndexDef.name hd)
      rw [List.find?_cons_of_neg _ (by simpa using hxname), ih hnd.2 d hd]

private theorem reviewAll_chara (m : ModelDef)
    (hall : ∀ d ∈ m.indexes, declaredToLive m d = some (dLive d)) :
    ∀ live : List LiveIndex, ∃ ops,
      reviewAll m live = some (live.filterMap (surviveOne m),
        (live.filter (fun l => !(isIdIndex l))).map LiveIndex.name, ops) := by
  intro live
  induction live with
  | nil => exact ⟨[], rfl⟩
  | cons l rest ih =>
    obtain ⟨ops, hih⟩ := ih
    by_cases hid : isIdIndex l
    · refine ⟨ops, ?_⟩
      have hs : surviveOne m l = some l := by simp [surviveOne, hid]
      rw [List.filterMap_cons_some hs, List.filter_cons_of_neg (by simp [hid])]
      simp [reviewAll, hid, hih]
    · cases hfind : m.indexes.find? (fun d => d.name = l.name) with
      | none =>
        refine ⟨.dropIndex l.name :: ops, ?_⟩
        have hs : surviveOne m l = none := by simp [surviveOne, hid, hfind]
        rw [List.filterMap_cons_none hs, List.filter_cons_of_pos (by simp [hid])]
        simp [reviewAll, hid, hfind, hih]
      | some d =>
        have hd := List.mem_of_find?_eq_some hfind
        by_cases heq : d = fromIndexModel l
        · refine ⟨ops, ?_⟩
          have hs : surviveOne m l = some l := by simp [surviveOne, hid, hfind, heq]
          rw [List.filterMap_cons_some hs, List.filter_cons_of_pos (by simp [hid])]
          simp [reviewAll, hid, hfind, heq, hih]
        · refine ⟨.dropIndex l.name :: .createIndex d.name :: ops, ?_⟩
          have hs : surviveOne m l = some (dLive d) := by
            simp [surviveOne, hid, hfind, heq]
          rw [List.filterMap_cons_some hs, List.filter_cons_of_pos (by simp [hid])]
          simp [reviewAll, hid, hfind, heq, hall d hd, hih]

private theorem createMissing_chara (m : ModelDef) (reviewed : List String) :
    ∀ ds : List IndexDef,
      (∀ d ∈ ds, skipIdSingle m d = some false) →
      (∀ d ∈ ds, declaredToLive m d = some (dLive d)) →
      createMissing m reviewed ds = some
        ((ds.filter (fun d => !(reviewed.contains d.name))).map dLive,
         (ds.filter (fun d => !(reviewed.contains d.name))).map
           (fun d => MigOp.createIndex d.name)) := by
  intro ds
  induction ds with
  | nil => intro _ _; rfl
  | cons d rest ih =>
    intro hskip hdl
    have hrest := ih (fun x hx => hskip x (by simp [hx])) (fun x hx => hdl x (by simp [hx]))
    by_cases hrev : reviewed.contains d.name
    · have hmem := (contains_eq_true_iff reviewed d.name).mp hrev
      rw [List.filter_cons_of_neg (by rw [hrev]; exact Bool.false_ne_true)]
      simp [createMissing, hrev, hmem, hrest]
    · have hrev' : reviewed.contains d.name = false := by
        rwa [Bool.not_eq_true] at hrev
      have hmem : d.name ∉ reviewed := fun hmm =>
        hrev ((contains_eq_true_iff reviewed d.name).mpr hmm)
      have h1 := hskip d (by simp)
      have h2 := hdl d (by simp)
      rw [List.filter_cons_of_pos (by rw [hrev']; rfl)]
      simp [createMissing, hrev', hmem, h1, h2, hrest]

private theorem reviewAll_noop (m : ModelDef) :
    ∀ live : List LiveIndex,
      (∀ l ∈ live, isIdIndex l = true ∨
        m.indexes.find? (fun d => d.name = l.name) = some (fromIndexModel l)) →
      reviewAll m live = some (live,
        (live.filter (fun l => !(isIdIndex l))).map LiveIndex.name, []) := by
  intro live
  induction live with
  | nil => intro _; rfl
  | cons l rest ih =>
    intro h
    have hrest := ih (fun x hx => h x (by simp [hx]))
    by_cases hid : isIdIndex l
    · rw [List.filter_cons_of_neg (by simp [hid])]
      simp [reviewAll, hid, hrest]
    · rcases h l (by simp) with hid' | hfind
      · rw [hid'] at hid; simp at hid
      · rw [List.filter_cons_of_pos (by simp [hid])]
        simp [reviewAll, hid, hfind, hrest]

private theorem createMissing_noop (m : ModelDef) (reviewed : List String) :
    ∀ ds : List IndexDef, (∀ d ∈ ds, reviewed.contains d.name = true) →
      createMissing m reviewed ds = some ([], []) := by
  intro ds
  induction ds with
  | nil => intro _; rfl
  | cons d rest ih =>
    intro h
    have hrest := ih (fun x hx => h x (by simp [hx]))
    have hmem := (contains_eq_true_iff reviewed d.name).mp (h d (by simp))
    simp [createMissing, h d (by simp), hmem, hrest]

private theorem filter_perm_extract (n : String) (q : IndexDef → Bool) :
    ∀ (l : List IndexDef), (l.map IndexDef.name).Nodup →
      ∀ d₀ ∈ l, d₀.name = n → q d₀ = false →
      List.Perm (l.filter (fun d => (d.name == n) || q d)) (d₀ :: l.filter q) := by
  intro l
  induction l with
  | nil => intro _ d₀ hd; simp at hd
  | cons x rest ih =>
    intro hnd d₀ hd₀ hname hq
    simp only [List.map_cons, List.nodup_cons] at hnd
    rcases List.mem_cons.mp hd₀ with rfl | hd₀
    · have hrest_congr : ∀ d ∈ rest, ((d.name == n) || q d) = q d := by
        intro d hd
        have hdn : ¬ (d.name = n) := by
          intro hh
          exact hnd.1 (by rw [hname, ← hh]; exact List.mem_map_of_mem IndexDef.name hd)
        simp [hdn]
      rw [List.filter_cons_of_pos (by simp [hname]),
        List.filter_cons_of_neg (by rw [hq]; exact Bool.false_ne_true),
        List.filter_congr hrest_congr]
    · have hxn : ¬ (x.name = n) := by
        intro hh
        exact hnd.1 (by rw [← hh] at hname; rw [← hname]; exact List.mem_map_of_mem IndexDef.name hd₀)
      have hpx : ((x.name == n) || q x) = q x := by simp [hxn]
      cases hqx : q x with
      | true =>
        rw [List.filter_cons_of_pos (by rw [hpx, hqx]),
          List.filter_cons_of_pos (by rw [hqx])]
        exact ((ih hnd.2 d₀ hd₀ hname hq).cons x).trans (List.Perm.swap d₀ x _)
      | false =>
        rw [List.filter_cons_of_neg (by rw [hpx, hqx]; exact Bool.false_ne_true),
          List.filter_cons_of_neg (by rw [hqx]; exact Bool.false_ne_true)]
        exact ih hnd.2 d₀ hd₀ hname hq

private theorem reviewed_filterMap_perm (m : ModelDef)
    (hn : (m.indexes.map IndexDef.name).Nodup) :
    ∀ rs : List String, rs.Nodup →
      List.Perm (rs.filterMap (fun n => m.indexes.find? (fun d => d.name = n)))
        (m.indexes.filter (fun d => rs.contains d.name)) := by
  intro rs
  induction rs with
  | nil =>
    intro _
    have : m.indexes.filter (fun d => ([] : List String).contains d.name) = [] := by
      rw [List.filter_eq_nil_iff]
      intro d _
      simp
    simp [this]
  | cons n rs' ih =>
    intro hnd
    obtain ⟨hn_notin, hnd'⟩ := List.nodup_cons.mp hnd
    have hcontains_cons : ∀ d : IndexDef,
        ((n :: rs').contains d.name) = ((d.name == n) || rs'.contains d.name) := by
      intro d
      rw [List.contains_cons]
    cases hfind : m.indexes.find? (fun d => d.name = n) with
    | none =>
      have hnone : ∀ d ∈ m.indexes, ¬ (d.name = n) := by
        intro d hd
        have := List.find?_eq_none.mp hfind d hd
        simpa using this
      have hfeq : m.indexes.filter (fun d => (n :: rs').contains d.name)
          = m.indexes.filter (fun d => rs'.contains d.name) := by
        apply List.filter_congr
        intro d hd
        rw [hcontains_cons d]
        simp [hnone d hd]
      rw [hfeq]
      simp only [List.filterMap_cons, hfind]
      exact ih hnd'
    | some d₀ =>
      have hd₀mem := List.mem_of_find?_eq_some hfind
      have hd₀n : d₀.name = n := by simpa using List.find?_some hfind
      have hq : (rs'.contains d₀.name) = false := by
        rw [hd₀n, ← Bool.not_eq_true]
        intro hc
        exact hn_notin ((contains_eq_true_iff rs' n).mp hc)
      have hperm := filter_perm_extract n (fun d => rs'.contains d.name)
        m.indexes hn d₀ hd₀mem hd₀n hq
      have hfeq : m.indexes.filter (fun d => (n :: rs').contains d.name)
          = m.indexes.filter (fun d => (d.name == n) || rs'.contains d.name) := by
        apply List.filter_congr
        intro d _
        rw [hcontains_cons d]
      rw [hfeq]
      simp only [List.filterMap_cons, hfind]
      exact ((ih hnd').cons d₀).trans hperm.symm

private theorem survivors_project (m : ModelDef)
    (hfrom : ∀ d ∈ m.indexes, fromIndexModel (dLive d) = d)
    (hnotid : ∀ d ∈ m.indexes, isIdIndex (dLive d) = false) :
    ∀ live : List LiveIndex,
      (((live.filterMap (surviveOne m)).filter (fun l => !(isIdIndex l))).map fromIndexModel)
        = live.filterMap (pickD m) := by
  intro live
  induction live with
  | nil => rfl
  | cons l rest ih =>
    by_cases hid : isIdIndex l
    · rw [List.filterMap_cons_some (show surviveOne m l = some l by simp [surviveOne, hid]),
        List.filter_cons_of_neg (by simp [hid]),
        List.filterMap_cons_none (show pickD m l = none by simp [pickD, hid])]
      exact ih
    · cases hfind : m.indexes.find? (fun d => d.name = l.name) with
      | none =>
        rw [List.filterMap_cons_none (show surviveOne m l = none by simp [surviveOne, hid, hfind]),
          List.filterMap_cons_none (show pickD m l = none by simp [pickD, hid, hfind])]
        exact ih
      | some d =>
        have hd := List.mem_of_find?_eq_some hfind
        by_cases heq : d = fromIndexModel l
        · rw [List.filterMap_cons_some
              (show surviveOne m l = some l by simp [surviveOne, hid, hfind, heq]),
            List.filter_cons_of_pos (by simp [hid]),
            List.filterMap_cons_some (show pickD m l = some d by simp [pickD, hid, hfind]),
            List.map_cons, ih, ← heq]
        · rw [List.filterMap_cons_some
              (show surviveOne m l = some (dLive d) by simp [surviveOne, hid, hfind, heq]),
            List.filter_cons_of_pos (by simp [hnotid d hd]),
            List.filterMap_cons_some (show pickD m l = some d by simp [pickD, hid, hfind]),
            List.map_cons, ih, hfrom d hd]

private theorem filterMap_pickD_eq (m : ModelDef) :
    ∀ live : List LiveIndex,
      live.filterMap (pickD m)
        = ((live.filter (fun l => !(isIdIndex l))).map LiveIndex.name).filterMap
            (fun n => m.indexes.find? (fun d => d.name = n)) := by
  intro live
  induction live with
  | nil => rfl
  | cons l rest ih =>
    by_cases hid : isIdIndex l
    · rw [List.filterMap_cons_none (show pickD m l = none by simp [pickD, hid]),
        List.filter_cons_of_neg (by simp [hid])]
      exact ih
    · rw [List.filter_cons_of_pos (by simp [hid]), List.map_cons]
      cases hfind : m.indexes.find? (fun d => d.name = l.name) with
      | none =>
        rw [List.filterMap_cons_none (show pickD m l = none by simp [pickD, hid, hfind])]
        simp only [List.filterMap_cons, hfind]
        exact ih
      | some d =>
        rw [List.filterMap_cons_some (show pickD m l = some d by simp [pickD, hid, hfind])]
        simp only [List.filterMap_cons, hfind]
        rw [ih]

private theorem created_project (m : ModelDef)
    (hfrom : ∀ d ∈ m.indexes, fromIndexModel (dLive d) = d)
    (hnotid : ∀ d ∈ m.indexes, isIdIndex (dLive d) = false)
    (P : IndexDef → Bool) :
    (((m.indexes.filter P).map dLive).filter (fun l => !(isIdIndex l))).map fromIndexModel
      = m.indexes.filter P := by
  have hsub : ∀ d ∈ m.indexes.filter P, d ∈ m.indexes :=
    fun d hd => List.mem_of_mem_filter hd
  have h1 : ((m.indexes.filter P).map dLive).filter (fun l => !(isIdIndex l))
      = (m.indexes.filter P).map dLive := by
    rw [List.filter_eq_self]
    intro a ha
    obtain ⟨d, hd, rfl⟩ := List.mem_map.mp ha
    simp [hnotid d (hsub d hd)]
  rw [h1, List.map_map,
    List.map_congr_left (fun d hd => by
      simp only [Function.comp]
      exact hfrom d (hsub d hd))]
  exact List.map_id' _

private theorem surviveOne_sound (m : ModelDef)
    (hn : (m.indexes.map IndexDef.name).Nodup)
    (hfrom : ∀ d ∈ m.indexes, fromIndexModel (dLive d) = d) :
    ∀ l l', surviveOne m l = some l' →
      isIdIndex l' = true ∨
        m.indexes.find? (fun d => d.name = l'.name) = some (fromIndexModel l') := by
  intro l l' h
  by_cases hid : isIdIndex l
  · simp only [surviveOne, hid, if_true] at h
    cases h
    exact Or.inl hid
  · cases hfind : m.indexes.find? (fun d => d.name = l.name) with
    | none => simp [surviveOne, hid, hfind] at h
    | some d =>
      have hd := List.mem_of_find?_eq_some hfind
      by_cases heq : d = fromIndexModel l
      · have h' : l' = l := by
          simp only [surviveOne, hid, hfind, heq, if_true, if_pos] at h
          simp at h
          exact h.symm
        subst h'
        right
        rw [hfind, heq]
      · have h' : l' = dLive d := by
          simp only [surviveOne, hid, hfind, heq] at h
          simp [heq] at h
          exact h.symm
        subst h'
        right
        rw [hfrom d hd]
        exact find_name_unique m.indexes hn d hd

/-- C3, amended: one `migrate` run converges — the non-implicit live
indexes, projected through `from_index_model`, are a permutation of the
declared indexes under the kind/items/name equality — and a second run
issues no drop or create and leaves the live state unchanged; each
hypothesis excludes a case the code demonstrably breaks (see the
counterexample theorem): Primary-kind declarations read back as Unique
(case i), a field whose `column_name` differs from its runtime name reads
back under the column name (case ii), a single-key index over the `_id`
column is never created (case iii), and two declarations sharing a name
resolve to the first only (case iv).  The remaining hypothesis — distinct
non-implicit live index names — states that the live listing is a real
collection state: MongoDB index names are unique per collection, so
`list_indexes` cannot report two non-implicit indexes with one name. -/
theorem c3_migrate_nonprimary_converges (m : ModelDef) (live : List LiveIndex)
    (hk : ∀ d ∈ m.indexes, d.kind ≠ IndexKind.primary)
    (hn : (m.indexes.map IndexDef.name).Nodup)
    (hf : ∀ d ∈ m.indexes, ∀ it ∈ d.items,
      ∃ f, m.field it.field = some f ∧ f.columnName = it.field)
    (hid1 : ∀ d ∈ m.indexes, ∀ it, d.items = [it] → it.field ≠ "_id")
    (hl : ((live.filter (fun l => !(isIdIndex l))).map LiveIndex.name).Nodup) :
    ∃ live₁ ops₁, migrateModel m live = some (live₁, ops₁) ∧
      List.Perm ((live₁.filter (fun l => !(isIdIndex l))).map fromIndexModel) m.indexes ∧
      migrateModel m live₁ = some (live₁, []) := by
  have hall : ∀ d ∈ m.indexes, declaredToLive m d = some (dLive d) :=
    fun d hd => declaredToLive_eq m d (hf d hd)
  have hfrom : ∀ d ∈ m.indexes, fromIndexModel (dLive d) = d :=
    fun d hd => fromIndexModel_dLive d (hk d hd)
  have hnotid : ∀ d ∈ m.indexes, isIdIndex (dLive d) = false :=
    fun d hd => dLive_not_id d (hid1 d hd)
  have hskip : ∀ d ∈ m.indexes, skipIdSingle m d = some false :=
    fun d hd => skipIdSingle_false m d (hf d hd) (hid1 d hd)
  obtain ⟨ops₁, hrev⟩ := reviewAll_chara m hall live
  have hcm := createMissing_chara m
    ((live.filter (fun l => !(isIdIndex l))).map LiveIndex.name) m.indexes hskip hall
  have hmig : migrateModel m live = some
      (live.filterMap (surviveOne m) ++
        (m.indexes.filter (fun d =>
          !(((live.filter (fun l => !(isIdIndex l))).map LiveIndex.name).contains d.name))).map dLive,
       ops₁ ++
        (m.indexes.filter (fun d =>
          !(((live.filter (fun l => !(isIdIndex l))).map LiveIndex.name).contains d.name))).map
          (fun d => MigOp.createIndex d.name)) := by
    simp [migrateModel, hrev, hcm]
  have hconv : List.Perm (((live.filterMap (surviveOne m) ++
      (m.indexes.filter (fun d =>
        !(((live.filter (fun l => !(isIdIndex l))).map LiveIndex.name).contains d.name))).map dLive).filter
          (fun l => !(isIdIndex l))).map fromIndexModel) m.indexes := by
    rw [List.filter_append, List.map_append,
      survivors_project m hfrom hnotid live,
      created_project m hfrom hnotid _,
      filterMap_pickD_eq m live]
    have hD := reviewed_filterMap_perm m hn
      ((live.filter (fun l => !(isIdIndex l))).map LiveIndex.name) hl
    have happ := hD.append (List.Perm.refl (m.indexes.filter (fun d =>
      !(((live.filter (fun l => !(isIdIndex l))).map LiveIndex.name).contains d.name))))
    refine happ.trans ?_
    exact List.filter_append_perm
      (fun d => ((live.filter (fun l => !(isIdIndex l))).map LiveIndex.name).contains d.name)
      m.indexes
  set live₁ := live.filterMap (surviveOne m) ++
    (m.indexes.filter (fun d =>
      !(((live.filter (fun l => !(isIdIndex l))).map LiveIndex.name).contains d.name))).map dLive
    with hl₁def
  have hlive₁ : ∀ l ∈ live₁, isIdIndex l = true ∨
      m.indexes.find? (fun d => d.name = l.name) = some (fromIndexModel l) := by
    intro l hl'
    rw [hl₁def] at hl'
    rcases List.mem_append.mp hl' with hm | hm
    · obtain ⟨l0, hl0, hs⟩ := List.mem_filterMap.mp hm
      exact surviveOne_sound m hn hfrom l0 l hs
    · obtain ⟨d, hd, rfl⟩ := List.mem_map.mp hm
      right
      have hdmem := List.mem_of_mem_filter hd
      rw [hfrom d hdmem]
      exact find_name_unique m.indexes hn d hdmem
  have hrev₂ := reviewAll_noop m live₁ hlive₁
  have hI2 : ∀ d ∈ m.indexes,
      ((live₁.filter (fun l => !(isIdIndex l))).map LiveIndex.name).contains d.name = true := by
    intro d hd
    rw [contains_eq_true_iff]
    have hdmem : d ∈ (live₁.filter (fun l => !(isIdIndex l))).map fromIndexModel :=
      hconv.mem_iff.mpr hd
    obtain ⟨l, hl', rfl⟩ := List.mem_map.mp hdmem
    exact List.mem_map.mpr ⟨l, hl', rfl⟩
  have hcm₂ := createMissing_noop m
    ((live₁.filter (fun l => !(isIdIndex l))).map LiveIndex.name) m.indexes hI2
  exact ⟨live₁, _, hmig, hconv, by simp [migrateModel, hrev₂, hcm₂]⟩

/-- C3 witness for the amended theorem: a unique index `byEmail` on a field
`email` converges from a live state holding only the implicit `_id`
index. -/
theorem c3_migrate_nonprimary_converges_witness :
    ∃ live₁ ops₁,
      migrateModel
        ⟨"User", "users", [⟨"email", "email", Ty.string, false⟩], [],
          [⟨.unique, "byEmail", [⟨"email", .asc⟩]⟩], []⟩ [idLive]
        = some (live₁, ops₁) ∧
      List.Perm ((live₁.filter (fun l => !(isIdIndex l))).map fromIndexModel)
        [⟨IndexKind.unique, "byEmail", [⟨"email", SortDir.asc⟩]⟩] ∧
      migrateModel
        ⟨"User", "users", [⟨"email", "email", Ty.string, false⟩], [],
          [⟨.unique, "byEmail", [⟨"email", .asc⟩]⟩], []⟩ live₁
        = some (live₁, []) :=
  c3_migrate_nonprimary_converges
    ⟨"User", "users", [⟨"email", "email", Ty.string, false⟩], [],
      [⟨.unique, "byEmail", [⟨"email", .asc⟩]⟩], []⟩ [idLive]
    (by decide)
    (by decide)
    (by
      intro d hd it hit
      simp only [List.mem_singleton] at hd
      subst hd
      simp only [List.mem_singleton] at hit
      subst hit
      exact ⟨⟨"email", "email", Ty.string, false⟩, rfl, rfl⟩)
    (by
      intro d hd it heq
      simp only [List.mem_singleton] at hd
      subst hd
      have hit : it = ⟨"email", SortDir.asc⟩ := by simpa using heq.symm
      subst hit
      decide)
    (by decide)

end MongoConnector
